import Mathlib

/-!
Verification of the cliffnotes core pipeline: a shallow embedding in Lean 4 of
the cache store (`cache.ts`), the classifier (`prompt.ts`), the orchestrator
(`analyzer.ts`), the discoverer and tree builder (`discovery.ts`), together
with proofs of the specified properties.

Modelling conventions:
- JavaScript objects used as string-keyed records (`Record<string, T>`,
  `Map<string, T>`) are modelled as association lists in insertion order,
  with first-match lookup (`recGet`), in-place overwrite (`recSet`) and
  in-place modification (`recUpdate`) — matching JS semantics where keys are
  unique and insertion order is preserved.
- File-system reads, the SHA-256 digest and the external summarization call
  are effects; they are passed in as explicit function parameters
  (`fsRead`, `hashOf`, `generate`), so the embedded code is pure.
- `async`/`await` orchestration is modelled as explicit state passing; the
  concurrency semaphore inside `analyzeFile` is reduced to its sequential
  projection (a running counter), while a separate instrumented trace model
  (`semStep`) captures the full FIFO queue behaviour of the `Semaphore` class.
-/

namespace Cliffnotes

/-! ## Generic list utilities (JS string/record primitives) -/

/-- First-match lookup in an association list: JS `obj[k]` / `map.get(k)`. -/
def recGet {α : Type} : List (String × α) → String → Option α
  | [], _ => none
  | (k', v) :: rest, k => if k' = k then some v else recGet rest k

/-- Overwrite-or-append in an association list: JS `obj[k] = v` / `map.set`.
JS records keep the original insertion position on overwrite. -/
def recSet {α : Type} : List (String × α) → String → α → List (String × α)
  | [], k, v => [(k, v)]
  | (k', v') :: rest, k, v =>
    if k' = k then (k', v) :: rest else (k', v') :: recSet rest k v

/-- In-place modification of an existing key (no-op when absent). -/
def recUpdate {α : Type} : List (String × α) → String → (α → α) → List (String × α)
  | [], _, _ => []
  | (k', v') :: rest, k, f =>
    if k' = k then (k', f v') :: rest else (k', v') :: recUpdate rest k f

/-- Key list in insertion order: JS `Object.keys` / `map.keys()`. -/
def recKeys {α : Type} (m : List (String × α)) : List String := m.map Prod.fst

/-- Does `pat` occur at the head of `l`? (helper for substring search). -/
def leadsChars : List Char → List Char → Bool
  | [], _ => true
  | _ :: _, [] => false
  | a :: as, b :: bs => a == b && leadsChars as bs

/-- Does `needle` occur anywhere in the character list? -/
def hasSubChars (needle : List Char) : List Char → Bool
  | [] => needle.isEmpty
  | c :: rest => leadsChars needle (c :: rest) || hasSubChars needle rest

/-- JS `haystack.includes(needle)` on strings. -/
def strIncludes (haystack needle : String) : Bool :=
  hasSubChars needle.data haystack.data

/-- JS `s.endsWith(suffix)`. -/
def strEndsWith (s suf : String) : Bool :=
  leadsChars suf.data.reverse s.data.reverse

/-- JS `s.toLowerCase()`, character by character (`Char.toLower` performs
the ASCII `A`–`Z` mapping; every pattern literal in the classifier is
ASCII). -/
def strToLower (s : String) : String :=
  String.mk (s.data.map Char.toLower)

/-- JS `s.split(sep)` for a one-character separator, on character lists.
`splitChar sep l` never returns `[]` (splitting the empty string gives
`[[]]`, i.e. `[""]`, exactly as in JS). -/
def splitChar (sep : Char) : List Char → List (List Char)
  | [] => [[]]
  | c :: rest =>
    match splitChar sep rest with
    | [] => [[c]]
    | s :: ss => if c = sep then [] :: s :: ss else (c :: s) :: ss

/-- JS `path.split("/")`. -/
def splitPath (s : String) : List String :=
  (splitChar '/' s.data).map String.mk

/-- JS `parts.join("/")`. -/
def joinPath (xs : List String) : String :=
  String.mk (List.intercalate ['/'] (xs.map String.data))

/-- JS default string comparison (lexicographic by code unit; all strings in
play are ASCII, where code-unit and code-point order agree). -/
def charListLe : List Char → List Char → Bool
  | [], _ => true
  | _ :: _, [] => false
  | a :: as, b :: bs =>
    if a.val < b.val then true
    else if b.val < a.val then false
    else charListLe as bs

/-- `a <= b` in JS string order. -/
def strLe (a b : String) : Bool := charListLe a.data b.data

/-- Insertion step for `sortStrings`. -/
def insertSorted (x : String) : List String → List String
  | [] => [x]
  | y :: ys => if strLe x y then x :: y :: ys else y :: insertSorted x ys

/-- JS `array.sort()` on a string array (insertion sort; JS sort on distinct
ASCII strings is determined by the comparison alone). -/
def sortStrings (l : List String) : List String := l.foldr insertSorted []

/-! ## Data model (`types.ts`) -/

/-- The closed category enumeration (`FileCategory` in `types.ts`). -/
inductive FileCategory where
  | schema | router | component | hook | util | service | config | type | test | other
deriving DecidableEq, Repr

/-- JS template-literal stringification of a `FileCategory` value. -/
def categoryLabel : FileCategory → String
  | .schema => "schema"
  | .router => "router"
  | .component => "component"
  | .hook => "hook"
  | .util => "util"
  | .service => "service"
  | .config => "config"
  | .type => "type"
  | .test => "test"
  | .other => "other"

/-- `FileAnalysis` from `types.ts` (the nested `tokens` object is flattened
into the two counter fields). -/
structure FileAnalysis where
  path : String
  relativePath : String
  category : FileCategory
  summary : String
  hash : String
  tokensInput : Nat
  tokensOutput : Nat
deriving DecidableEq, Repr

/-- `CacheEntry` from `types.ts`. -/
structure CacheEntry where
  hash : String
  summary : String
  category : FileCategory
  analyzedAt : String
  tokensInput : Nat
  tokensOutput : Nat
deriving DecidableEq, Repr

/-- `CacheData` from `types.ts`: `entries` is a string-keyed record. -/
structure CacheData where
  version : Int
  entries : List (String × CacheEntry)
deriving DecidableEq, Repr

/-- `FolderInfo` from `types.ts`. -/
structure FolderInfo where
  path : String
  name : String
  files : List FileAnalysis
  subfolders : List String
  depth : Nat
deriving DecidableEq, Repr

/-- `FolderTree` from `types.ts`: the `folders` map in insertion order. -/
structure FolderTree where
  folders : List (String × FolderInfo)
  root : String
deriving DecidableEq, Repr

/-! ## Cache store (`cache.ts`) -/

/-- `const CACHE_VERSION = 1` in `cache.ts`. -/
def CACHE_VERSION : Int := 1

/-- `getCacheEntry(cache, relativePath)`. -/
def getCacheEntry (cache : CacheData) (relativePath : String) : Option CacheEntry :=
  recGet cache.entries relativePath

/-- `setCacheEntry(cache, relativePath, entry)` (mutation modelled by
returning the updated store). -/
def setCacheEntry (cache : CacheData) (relativePath : String) (entry : CacheEntry) :
    CacheData :=
  { cache with entries := recSet cache.entries relativePath entry }

/-- `isCacheValid(entry, currentHash)`:
`entry !== undefined && entry.hash === currentHash`. -/
def isCacheValid : Option CacheEntry → String → Bool
  | none, _ => false
  | some entry, currentHash => entry.hash == currentHash

/-- `pruneCache(cache, currentFiles)`: the loop walks `Object.keys(entries)`,
deletes every key absent from `currentFiles` and records it.  On a record
(unique keys, insertion order), its net effect is: remaining entries are the
original ones whose key is present, in order, and the removed list is the
original key list restricted to the absent keys.  Returns
(updated store, removed paths). -/
def pruneCache (cache : CacheData) (currentFiles : List String) :
    CacheData × List String :=
  ({ cache with entries := cache.entries.filter fun kv => currentFiles.contains kv.1 },
   (recKeys cache.entries).filter fun k => !(currentFiles.contains k))

/-! ## Cache loading (`loadCache` in `cache.ts`)

`loadCache` reads a JSON file inside a `try`/`catch`.  The outcome of
`existsSync` + `readFile` + `JSON.parse` is modelled as
`Option (Option JsonVal)`: `none` = the file does not exist; `some none` =
reading or parsing threw (caught by the `catch`); `some (some v)` = the
parse produced the JSON value `v`.  The `as CacheData` cast in the source
performs no validation, so the function's result is the raw JSON value. -/

/-- JSON values (the possible results of `JSON.parse`). -/
inductive JsonVal where
  | null
  | bool (b : Bool)
  | num (n : Int)
  | str (s : String)
  | arr (elems : List JsonVal)
  | obj (fields : List (String × JsonVal))

/-- Field lookup in a parsed JSON object (first match; `JSON.parse` never
produces duplicate keys). -/
def jsonFieldGet : List (String × JsonVal) → String → Option JsonVal
  | [], _ => none
  | (k', v) :: rest, k => if k' = k then some v else jsonFieldGet rest k

/-- JS property access `v.k`: `none` = a `TypeError` is thrown (`null`
receiver); `some none` = `undefined`; `some (some x)` = the value. Property
access on primitives and arrays yields `undefined` for `"version"`. -/
def jsGetField : JsonVal → String → Option (Option JsonVal)
  | .null, _ => none
  | .obj fields, k => some (jsonFieldGet fields k)
  | _, _ => some none

/-- JS strict comparison `v === CACHE_VERSION` where `v` is the (possibly
`undefined`) result of `data.version`. -/
def versionMatches : Option JsonVal → Bool
  | some (.num n) => n == CACHE_VERSION
  | _ => false

/-- The fresh store `{ version: CACHE_VERSION, entries: {} }` as a JSON
value. -/
def emptyStore : JsonVal :=
  .obj [("version", .num CACHE_VERSION), ("entries", .obj [])]

/-- `loadCache`: missing file and any caught exception (read failure, parse
failure, `TypeError` from `data.version` on `null`) give a fresh empty
store; a version mismatch gives a fresh empty store; otherwise the parsed
value is returned unchanged (the `as CacheData` cast checks nothing). -/
def loadCache : Option (Option JsonVal) → JsonVal
  | none => emptyStore
  | some none => emptyStore
  | some (some data) =>
    match jsGetField data "version" with
    | none => emptyStore
    | some v => if versionMatches v then data else emptyStore

/-- Discriminator used to tell `loadCache` results apart without decidable
equality on `JsonVal`: does the value have an `"entries"` field? -/
def hasEntriesField : JsonVal → Bool
  | .obj fields => (jsonFieldGet fields "entries").isSome
  | _ => false

/-! ## Classifier (`detectCategory` in `prompt.ts`) -/

/-- `/^use[A-Z]/.test(s)`: the string starts with `use` followed by an
ASCII capital (`Char.isUpper` is exactly the `A`–`Z` test). -/
def matchesUseHook (s : String) : Bool :=
  match s.data with
  | 'u' :: 's' :: 'e' :: c :: _ => c.isUpper
  | _ => false

/-- `filePath.split("/").pop() || ""`: the final path segment
(`split` never yields an empty array, and `|| ""` maps the impossible
`undefined` to the empty string). -/
def lastPathSegment (filePath : String) : String :=
  (splitPath filePath).getLastD ""

/-- `detectCategory(filePath, content)` from `prompt.ts`, clause for
clause.  Note the source tests the lowercased content for the mixed-case
literal `"pgTable("`; the embedding reproduces that literal verbatim. -/
def detectCategory (filePath content : String) : FileCategory :=
  let lowerPath := strToLower filePath
  let lowerContent := strToLower content
  if strIncludes lowerPath "schema.prisma" ||
     strIncludes lowerPath "schema.ts" ||
     strIncludes lowerPath "/schema/" ||
     strIncludes lowerPath "/models/" ||
     strIncludes lowerContent "datasource " ||
     strIncludes lowerContent "createtable" ||
     strIncludes lowerContent "pgTable(" ||
     strIncludes lowerContent "sqlitetable(" ||
     strIncludes lowerContent "mysqltable(" then
    .schema
  else if strIncludes lowerPath "/api/" ||
     strIncludes lowerPath "/routes/" ||
     strIncludes lowerPath "/router" ||
     strIncludes lowerPath ".router." ||
     strIncludes lowerContent "createtrpcrouter" ||
     strIncludes lowerContent "router.get(" ||
     strIncludes lowerContent "router.post(" ||
     strIncludes lowerContent "app.get(" ||
     strIncludes lowerContent "app.post(" ||
     strIncludes lowerContent "export async function get(" ||
     strIncludes lowerContent "export async function post(" ||
     strIncludes lowerContent "hono" then
    .router
  else if strIncludes lowerPath "/hooks/" ||
     strIncludes lowerPath ".hook." ||
     matchesUseHook (lastPathSegment filePath) then
    .hook
  else if strEndsWith lowerPath ".tsx" ||
     strEndsWith lowerPath ".jsx" ||
     strIncludes lowerPath "/components/" ||
     strIncludes lowerPath "/pages/" ||
     strIncludes lowerPath "/app/" ||
     strIncludes lowerContent "export default function" ||
     (strIncludes lowerContent "export function" &&
      strIncludes lowerContent "return (") then
    .component
  else if strIncludes lowerPath "/types/" ||
     strIncludes lowerPath ".types." ||
     strIncludes lowerPath "/interfaces/" ||
     (strIncludes lowerContent "export interface" &&
      !(strIncludes lowerContent "function")) then
    .type
  else if strIncludes lowerPath "config" ||
     strIncludes lowerPath ".config." ||
     strIncludes lowerPath "/env" then
    .config
  else if strIncludes lowerPath "/services/" ||
     strIncludes lowerPath "/lib/" ||
     strIncludes lowerPath ".service." ||
     strIncludes lowerContent "class " ||
     strIncludes lowerContent "async function" then
    .service
  else if strIncludes lowerPath "/utils/" ||
     strIncludes lowerPath "/helpers/" ||
     strIncludes lowerPath ".util." ||
     strIncludes lowerPath ".helper." then
    .util
  else if strIncludes lowerPath ".test." ||
     strIncludes lowerPath ".spec." ||
     strIncludes lowerPath "__tests__" then
    .test
  else
    .other

/-! ## Prompt construction (`buildAnalysisPrompt` in `prompt.ts`)

Pure string templating, transcribed from the source.  Literal braces are
written with `\x7b`/`\x7d` escapes and apostrophes with `\x27`; the text is
otherwise verbatim. -/

/-- `getCategoryInstructions(category)`. -/
def getCategoryInstructions : FileCategory → String
  | .schema =>
    "This is a DATABASE SCHEMA file. Output the COMPLETE schema verbatim including:\n" ++
    "- All models/tables with ALL fields and types\n" ++
    "- All relations and foreign keys\n" ++
    "- All indexes and constraints\n" ++
    "- Enums and custom types\n" ++
    "This is critical reference material - do not summarize, include everything."
  | .router =>
    "This is a ROUTER/API file. Document EVERY endpoint:\n" ++
    "- HTTP method and path (or procedure name for tRPC)\n" ++
    "- Input type/validation (Zod schema, body params, query params)\n" ++
    "- Output type\n" ++
    "- One-line description of what it does\n" ++
    "- Any middleware or auth requirements"
  | .component =>
    "This is a COMPONENT file. Document:\n" ++
    "- Props interface (full type if complex)\n" ++
    "- Key state and what triggers re-renders\n" ++
    "- Data fetching (queries, mutations, API calls)\n" ++
    "- Important event handlers\n" ++
    "- Child components it renders (just names)"
  | .hook =>
    "This is a HOOK file. Document:\n" ++
    "- Parameters and their types\n" ++
    "- Return value type and shape\n" ++
    "- Side effects (API calls, subscriptions, localStorage)\n" ++
    "- Dependencies that trigger re-runs"
  | .util =>
    "This is a UTILITY file. For each exported function:\n" ++
    "- Function signature (name, params, return type)\n" ++
    "- One-line description\n" ++
    "- Edge cases or important behavior"
  | .service =>
    "This is a SERVICE/BUSINESS LOGIC file. Document:\n" ++
    "- Class or module purpose\n" ++
    "- Public methods with signatures\n" ++
    "- External dependencies (APIs, databases)\n" ++
    "- Key business rules implemented"
  | .config =>
    "This is a CONFIG file. Document:\n" ++
    "- What it configures\n" ++
    "- Environment variables used\n" ++
    "- Default values and their implications\n" ++
    "- How to override settings"
  | .type =>
    "This is a TYPE DEFINITION file. Include VERBATIM:\n" ++
    "- All exported interfaces and types\n" ++
    "- Important JSDoc comments\n" ++
    "- Generic constraints\n" ++
    "This is reference material - keep full definitions."
  | .test =>
    "This is a TEST file. Briefly note:\n" ++
    "- What module/component it tests\n" ++
    "- Key test scenarios covered\n" ++
    "- Any test utilities defined here"
  | .other =>
    "Analyze this file and document:\n" ++
    "- Its purpose in the codebase\n" ++
    "- Key exports and their signatures\n" ++
    "- How other files would use this"

/-- `getFormatTemplate(category)`. -/
def getFormatTemplate : FileCategory → String
  | .schema =>
    "**Schema:**\n```\n[FULL SCHEMA HERE - DO NOT SUMMARIZE]\n```"
  | .router =>
    "**Endpoints:**\n" ++
    "| Method | Path | Input | Output | Description |\n" ++
    "|--------|------|-------|--------|-------------|\n" ++
    "| ... | ... | ... | ... | ... |"
  | .component =>
    "**Props:** `\x7b prop1: Type, prop2?: Type \x7d`\n" ++
    "**State:** [key state variables]\n" ++
    "**Data:** [queries/mutations used]\n" ++
    "**Renders:** [key child components]"
  | .hook =>
    "**Signature:** `useHookName(param: Type): ReturnType`\n" ++
    "**Returns:** [shape of return value]\n" ++
    "**Effects:** [side effects]"
  | .util =>
    "**Exports:**\n" ++
    "- `functionName(params): Return` - description\n" ++
    "- `anotherFunction(params): Return` - description"
  | .service =>
    "**Methods:**\n" ++
    "- `methodName(params): Return` - description\n" ++
    "**Depends on:** [external services/APIs]"
  | .config =>
    "**Configures:** [what system]\n" ++
    "**Env vars:** `VAR_NAME`, `OTHER_VAR`\n" ++
    "**Defaults:** [important defaults]"
  | .type =>
    "**Types:**\n```typescript\n[FULL TYPE DEFINITIONS]\n```"
  | .test =>
    "**Tests:** [module name]\n**Scenarios:** [key test cases]"
  | .other =>
    "**Exports:**\n- [list key exports with brief descriptions]"

/-- `buildAnalysisPrompt(relativePath, content, category)`. -/
def buildAnalysisPrompt (relativePath content : String) (category : FileCategory) :
    String :=
  let categoryInstructions := getCategoryInstructions category
  "You are generating cliffnotes for a codebase. Your output will be used by AI assistants to understand where to find things and how the code works.\n" ++
  "\n" ++
  "FILE: " ++ relativePath ++ "\n" ++
  "CATEGORY: " ++ categoryLabel category ++ "\n" ++
  "\n" ++
  "<file_content>\n" ++
  content ++ "\n" ++
  "</file_content>\n" ++
  "\n" ++
  categoryInstructions ++ "\n" ++
  "\n" ++
  "FORMAT YOUR RESPONSE EXACTLY LIKE THIS (omit sections that don\x27t apply):\n" ++
  "\n" ++
  "## " ++ relativePath ++ "\n" ++
  "**Purpose:** [One sentence: what this file does]\n" ++
  "**Category:** " ++ categoryLabel category ++ "\n" ++
  "\n" ++
  getFormatTemplate category ++ "\n" ++
  "\n" ++
  "**Search terms:** `term1`, `term2`, `term3` [grep-friendly terms to find this file\x27s functionality]\n" ++
  "\n" ++
  "RULES:\n" ++
  "- Be extremely terse. No fluff.\n" ++
  "- For schemas: Include the FULL schema verbatim - every field, every relation, every index\n" ++
  "- For routers: Every route must be documented with method, path, input→output\n" ++
  "- For components: Focus on props interface and what data it fetches/mutates\n" ++
  "- For types: Include the full type definitions verbatim if they\x27re important domain types\n" ++
  "- Grep terms should be specific: function names, unique strings, error messages\n" ++
  "- Skip obvious imports unless they reveal architecture (e.g., importing from a specific service)\n" ++
  "- If a file is trivial (re-exports, simple constants), say so in one line"

/-! ## Orchestrator (`analyzer.ts`) -/

/-- `isMinified(content)`: at least 5 lines and average line length above
500.  The JS float comparison `content.length / lines.length > 500` on
integers is exactly `content.length > 500 * lines.length`.  JS `.length`
counts UTF-16 units; the embedding counts characters, which agrees on the
ASCII and BMP text relevant here. -/
def isMinified (content : String) : Bool :=
  let lines := splitChar '\n' content.data
  if lines.length < 5 then false
  else decide (500 * lines.length < content.data.length)

/-- Result type of `analyzeFile` (`AnalyzeFileResult` in `analyzer.ts`). -/
structure AnalyzeFileResult where
  analysis : FileAnalysis
  fromCache : Bool
deriving DecidableEq, Repr

/-- The miss path of `analyzeFile` (everything after the `isCacheValid`
guard).  Sequential projection of the semaphore: `running` is the
Semaphore\x27s `running` counter; `await semaphore.acquire()` proceeds at once
when `running < maxConcurrent` and otherwise the task is parked in the
queue, which in this one-task-at-a-time model means the call does not
complete (`none`).  `semaphore.release()` in the `finally` block decrements
the counter on every exit path.  The last component counts calls to the
external summarization service (`generateText`). -/
def analyzeFileMiss (hashOf : String → String)
    (generate : String → String × Nat × Nat) (now : String)
    (fsRead : String → String) (maxConcurrent : Nat)
    (filePath relativePath : String) (cache : CacheData) (running : Nat)
    (hash : String) : Option (AnalyzeFileResult × CacheData × Nat × Nat) :=
  if running < maxConcurrent then
    let running := running + 1
    let content := fsRead filePath
    let category := detectCategory relativePath content
    if content.data.length > 100000 || isMinified content then
      let skippedSummary :=
        "## " ++ relativePath ++
        "\n**Purpose:** [Skipped - file too large or minified]\n**Category:** " ++
        categoryLabel category
      let entry : CacheEntry :=
        ⟨hash, skippedSummary, category, now, 0, 0⟩
      let cache := setCacheEntry cache relativePath entry
      some (⟨⟨filePath, relativePath, category, skippedSummary, hash, 0, 0⟩, false⟩,
            cache, running - 1, 0)
    else
      let prompt := buildAnalysisPrompt relativePath content category
      let result := generate prompt
      let summary := result.1
      let entry : CacheEntry :=
        ⟨hash, summary, category, now, result.2.1, result.2.2⟩
      let cache := setCacheEntry cache relativePath entry
      some (⟨⟨filePath, relativePath, category, summary, hash, result.2.1, result.2.2⟩, false⟩,
            cache, running - 1, 1)
  else none

/-- `analyzeFile(filePath, relativePath, cache, anthropic, semaphore)`.
The volatile inputs are explicit: `hashOf` models the truncated SHA-256 of
`computeFileHash` (applied to the file content read by `fsRead`),
`generate` models `generateText` (summary text and prompt/completion token
counts), `now` models `new Date().toISOString()`.  The `isCacheValid`
guard of the source is expanded into its two cases so the cached entry is
in scope on the hit path. -/
def analyzeFile (hashOf : String → String)
    (generate : String → String × Nat × Nat) (now : String)
    (fsRead : String → String) (maxConcurrent : Nat)
    (filePath relativePath : String) (cache : CacheData) (running : Nat) :
    Option (AnalyzeFileResult × CacheData × Nat × Nat) :=
  let hash := hashOf (fsRead filePath)
  match getCacheEntry cache relativePath with
  | some cachedEntry =>
    if cachedEntry.hash == hash then
      some (⟨⟨filePath, relativePath, cachedEntry.category, cachedEntry.summary,
              hash, cachedEntry.tokensInput, cachedEntry.tokensOutput⟩, true⟩,
            cache, running, 0)
    else
      analyzeFileMiss hashOf generate now fsRead maxConcurrent
        filePath relativePath cache running hash
  | none =>
    analyzeFileMiss hashOf generate now fsRead maxConcurrent
      filePath relativePath cache running hash

/-- Sequential driver behind `analyzeFiles`: one task at a time, threading
the shared cache, the semaphore counter, and the external-call count. -/
def analyzeFilesGo (hashOf : String → String)
    (generate : String → String × Nat × Nat) (now : String)
    (fsRead : String → String) (maxConcurrent : Nat) :
    List (String × String) → CacheData → Nat →
    Option (List AnalyzeFileResult × CacheData × Nat × Nat)
  | [], cache, running => some ([], cache, running, 0)
  | (absolute, relative) :: rest, cache, running =>
    match analyzeFile hashOf generate now fsRead maxConcurrent
        absolute relative cache running with
    | none => none
    | some (r, cache', running', calls) =>
      match analyzeFilesGo hashOf generate now fsRead maxConcurrent
          rest cache' running' with
      | none => none
      | some (rs, cacheF, runningF, callsF) =>
        some (r :: rs, cacheF, runningF, calls + callsF)

/-- `analyzeFiles(files, cache, concurrency)`: creates a fresh
`Semaphore(concurrency)` (counter 0) and maps `analyzeFile` over the input
list; results keep input order.  Returns the results, the final cache, and
the number of external-service calls. -/
def analyzeFiles (hashOf : String → String)
    (generate : String → String × Nat × Nat) (now : String)
    (fsRead : String → String) (concurrency : Nat)
    (files : List (String × String)) (cache : CacheData) :
    Option (List AnalyzeFileResult × CacheData × Nat) :=
  match analyzeFilesGo hashOf generate now fsRead concurrency files cache 0 with
  | none => none
  | some (rs, cacheF, _, calls) => some (rs, cacheF, calls)

/-! ## The `Semaphore` class as a trace model

To state the concurrent FIFO property the class is instrumented with task
identities: `holders` are the tasks whose `acquire()` has returned and that
have not yet called `release()` (its length is exactly the class\x27s
`running` counter), `queue` holds the parked `resolve` callbacks in arrival
order.  `acquire` by task `t` either admits it (`running < maxConcurrent`,
counter incremented) or appends it to the queue; `release` decrements the
counter and, when the queue is non-empty, shifts the oldest waiter and
re-increments the counter for it. -/

/-- Semaphore state: slot holders (admission order) and the wait queue. -/
structure SemState where
  holders : List Nat
  queue : List Nat
deriving DecidableEq, Repr

/-- Events: task `t` calls `acquire()`, or a holder `t` calls `release()`. -/
inductive SemEvent where
  | acq (t : Nat)
  | rel (t : Nat)
deriving DecidableEq, Repr

/-- One step of the `Semaphore` class. -/
def semStep (maxConcurrent : Nat) (s : SemState) : SemEvent → SemState
  | .acq t =>
    if s.holders.length < maxConcurrent then
      { holders := s.holders ++ [t], queue := s.queue }
    else
      { holders := s.holders, queue := s.queue ++ [t] }
  | .rel t =>
    match s.queue with
    | [] => { holders := s.holders.erase t, queue := [] }
    | u :: rest => { holders := s.holders.erase t ++ [u], queue := rest }

/-- Run a trace of semaphore events. -/
def semRun (maxConcurrent : Nat) (s : SemState) (events : List SemEvent) : SemState :=
  events.foldl (semStep maxConcurrent) s

/-- Is this event permitted in state `s`? `release()` is only ever called
by a current slot holder (the discipline guaranteed by `analyzeFile`\x27s
`try`/`finally`). -/
def semEventOk (s : SemState) : SemEvent → Bool
  | .acq _ => true
  | .rel t => s.holders.contains t

/-- A trace is valid when every event is permitted in the state it fires
in. -/
def semValid (maxConcurrent : Nat) : SemState → List SemEvent → Bool
  | _, [] => true
  | s, e :: es =>
    semEventOk s e && semValid maxConcurrent (semStep maxConcurrent s e) es

/-- The initial semaphore state (`new Semaphore(n)`). -/
def semInit : SemState := ⟨[], []⟩

/-! ## Discoverer (`discoverFiles` in `discovery.ts`) -/

/-- `CliffnotesConfig` from `types.ts`. -/
structure CliffnotesConfig where
  concurrency : Nat
  include' : List String
  exclude : List String
  outputFile : String
  cacheFile : String
deriving DecidableEq, Repr

/-- `DEFAULT_CONFIG` from `types.ts`. -/
def DEFAULT_CONFIG : CliffnotesConfig :=
  { concurrency := 5
  , include' := ["**/*.ts", "**/*.tsx", "**/*.js", "**/*.jsx"]
  , exclude :=
      [ "**/node_modules/**", "**/dist/**", "**/build/**", "**/.next/**"
      , "**/coverage/**", "**/*.test.*", "**/*.spec.*", "**/*.d.ts"
      , "**/generated/**" ]
  , outputFile := "CLIFFNOTES.md"
  , cacheFile := ".cliffnotes-cache.json" }

/-- The `{absolute, relative}` pair returned per file. -/
structure FileRef where
  absolute : String
  relative : String
deriving DecidableEq, Repr

/-- The file-system and glob collaborators of `discoverFiles`:
`existsSync`, `readFile` (`none` = the read rejects), and
`glob(pattern, \x7bcwd\x7d)` (pattern, then cwd; yields relative matches). -/
structure FSModel where
  existsSync : String → Bool
  readFileOpt : String → Option String
  glob : String → String → List String

/-- `path.resolve(root, p)` abstracted to joining with a separator; none of
the verified properties depend on resolution internals. -/
def pathResolve (root p : String) : String := root ++ "/" ++ p

/-- JS `[...new Set(allFiles)]`: deduplication keeping first occurrences. -/
def jsSetDedupAux (seen : List String) : List String → List String
  | [] => []
  | x :: rest =>
    if x ∈ seen then jsSetDedupAux seen rest
    else x :: jsSetDedupAux (x :: seen) rest

/-- Deduplicate preserving first-occurrence order. -/
def jsSetDedup (l : List String) : List String := jsSetDedupAux [] l

/-- The only exception `discoverFiles` can propagate: the `.gitignore`
read rejecting after `existsSync` reported it present. -/
inductive DiscoverError where
  | readFailed
deriving DecidableEq, Repr

/-- `discoverFiles(rootDir, config)`.  The `ignore` engine is the
collaborator `igEngine rules path` (true = ignored); rules accumulate in
the order the source `add`s them: `.gitignore` content, configured
excludes, output file, cache file, `"**/CLIFFNOTES.md"`.  There is no
root-existence check anywhere in the function: when the root does not
exist the `.gitignore` probe is negative and every glob yields no matches,
so the result is `ok []`. -/
def discoverFiles (fs : FSModel) (igEngine : List String → String → Bool)
    (rootDir : String) (config : CliffnotesConfig) :
    Except DiscoverError (List FileRef) :=
  let gitignorePath := pathResolve rootDir ".gitignore"
  let gitignoreRules : Except DiscoverError (List String) :=
    if fs.existsSync gitignorePath then
      match fs.readFileOpt gitignorePath with
      | some content => .ok [content]
      | none => .error .readFailed
    else .ok []
  match gitignoreRules with
  | .error e => .error e
  | .ok gitRules =>
    let rules := gitRules ++ config.exclude ++
      [config.outputFile, config.cacheFile, "**/CLIFFNOTES.md"]
    let allFiles := config.include'.foldl (fun acc pat => acc ++ fs.glob pat rootDir) []
    let uniqueFiles := jsSetDedup allFiles
    let filtered := uniqueFiles.filter fun file => !(igEngine rules file)
    .ok ((sortStrings filtered).map fun file =>
      { absolute := pathResolve rootDir file
      , relative := String.mk (file.data.map fun c => if c = '\\' then '/' else c) })

/-! ## TreeBuilder (`buildFolderTree` in `discovery.ts`) -/

/-- The parent segments of a relative path: `parts.pop()` leaves the split
minus the file name. -/
def folderPartsOf (relativePath : String) : List String :=
  (splitPath relativePath).dropLast

/-- The folder a file belongs to: the joined parent segments, or the root
sentinel `"."` when the file sits at the root. -/
def folderPathOf (relativePath : String) : String :=
  if (folderPartsOf relativePath).length > 0 then joinPath (folderPartsOf relativePath)
  else "."

/-- First pass of `buildFolderTree` for one analysis: strip the file name,
map the empty parent to the sentinel `"."`, create the folder entry on
first sight, and push the analysis onto its `files`. -/
def pass1Step (folders : List (String × FolderInfo)) (analysis : FileAnalysis) :
    List (String × FolderInfo) :=
  let parts := folderPartsOf analysis.relativePath
  let folderPath := folderPathOf analysis.relativePath
  let folders :=
    if (recGet folders folderPath).isSome then folders
    else recSet folders folderPath
      { path := folderPath
      , name := if parts.length > 0 then parts.getLastD "" else "root"
      , files := []
      , subfolders := []
      , depth := parts.length }
  recUpdate folders folderPath fun f => { f with files := f.files ++ [analysis] }

/-- The ancestor path at level `i` of a segment list: level 0 is the root
sentinel `"."`, level `i ≥ 1` is the join of the first `i` segments
(`parts.slice(0, i).join("/")` in the source). -/
def ancestorAt (parts : List String) (i : Nat) : String :=
  if i = 0 then "." else joinPath (parts.take i)

/-- Inner loop body of the second pass at index `i`: ensure the ancestor at
level `i` exists (synthesizing it with no files) and record segment `i` as
one of its subfolders if not already present. -/
def ensureStep (parts : List String) (folders : List (String × FolderInfo))
    (i : Nat) : List (String × FolderInfo) :=
  let ancestorPath := ancestorAt parts i
  let folders :=
    if (recGet folders ancestorPath).isSome then folders
    else recSet folders ancestorPath
      { path := ancestorPath
      , name := if i = 0 then "root" else (parts.take i).getLastD ""
      , files := []
      , subfolders := []
      , depth := i }
  let childName := parts.getD i ""
  recUpdate folders ancestorPath fun f =>
    if childName ∈ f.subfolders then f
    else { f with subfolders := f.subfolders ++ [childName] }

/-- Second pass of `buildFolderTree` for one recorded folder path: root is
skipped, otherwise every ancestor level of the path is ensured. -/
def pass2Step (folders : List (String × FolderInfo)) (path : String) :
    List (String × FolderInfo) :=
  if path = "." then folders
  else (List.range (splitPath path).length).foldl (ensureStep (splitPath path)) folders

/-- `buildFolderTree(analyses)`: first pass assigns files to folders,
second pass walks the recorded folder paths (`allPaths`, a snapshot of the
keys) synthesizing ancestors and collecting subfolder names, and finally
every folder\x27s subfolder list is sorted. -/
def buildFolderTree (analyses : List FileAnalysis) : FolderTree :=
  let folders := analyses.foldl pass1Step []
  let allPaths := recKeys folders
  let folders := allPaths.foldl pass2Step folders
  let folders := folders.map fun kf =>
    (kf.1, { kf.2 with subfolders := sortStrings kf.2.subfolders })
  { folders := folders, root := "." }

/-! ## `getFoldersWithContent` (`discovery.ts`)

The source\x27s `hasContent` closure recurses through subfolder links with no
memoization and no depth bound; on every tree the source can terminate on,
the recursion strictly lengthens the looked-up path, so its depth is below
the number of folders.  The embedding makes that bound explicit as fuel
(`tree.folders.length + 1`); exhausted fuel corresponds to a recursion the
source would never finish. -/

/-- `hasContent(path)` with explicit fuel. -/
def hasContent (folders : List (String × FolderInfo)) : Nat → String → Bool
  | 0, _ => false
  | fuel + 1, path =>
    match recGet folders path with
    | none => false
    | some folder =>
      if folder.files.length > 0 then true
      else folder.subfolders.any fun sub =>
        hasContent folders fuel (if path = "." then sub else path ++ "/" ++ sub)

/-- The fuel with which `getFoldersWithContent` runs `hasContent`. -/
def contentFuel (tree : FolderTree) : Nat := tree.folders.length + 1

/-- Insertion step for sorting folders by path (`localeCompare` on the
ASCII paths in play coincides with code-unit order). -/
def insertFolderSorted (x : FolderInfo) : List FolderInfo → List FolderInfo
  | [] => [x]
  | y :: ys => if strLe x.path y.path then x :: y :: ys else y :: insertFolderSorted x ys

/-- `result.sort((a, b) => a.path.localeCompare(b.path))`. -/
def sortFolders (l : List FolderInfo) : List FolderInfo :=
  l.foldr insertFolderSorted []

/-- `getFoldersWithContent(tree)`: keep each folder whose subtree contains
a file, restrict its subfolder list to children with content, and sort the
result by path. -/
def getFoldersWithContent (tree : FolderTree) : List FolderInfo :=
  let fuel := contentFuel tree
  sortFolders (tree.folders.filterMap fun kf =>
    if hasContent tree.folders fuel kf.1 then
      some { kf.2 with
        subfolders := kf.2.subfolders.filter fun sub =>
          hasContent tree.folders fuel
            (if kf.1 = "." then sub else kf.1 ++ "/" ++ sub) }
    else none)

/-! # Lemmas: association-list records -/

theorem recKeys_nil {α : Type} : recKeys ([] : List (String × α)) = [] := rfl

theorem recKeys_cons {α : Type} (k : String) (v : α) (m : List (String × α)) :
    recKeys ((k, v) :: m) = k :: recKeys m := rfl

theorem recGet_recSet_self {α : Type} (m : List (String × α)) (k : String) (v : α) :
    recGet (recSet m k v) k = some v := by
  induction m with
  | nil => simp [recSet, recGet]
  | cons kv rest ih =>
    obtain ⟨k', v'⟩ := kv
    by_cases h : k' = k
    · simp [recSet, recGet, h]
    · simp [recSet, recGet, h, ih]

theorem recGet_recSet_ne {α : Type} (m : List (String × α)) (k a : String) (v : α)
    (h : a ≠ k) : recGet (recSet m k v) a = recGet m a := by
  have h' : ¬(k = a) := fun hh => h hh.symm
  induction m with
  | nil => simp [recSet, recGet, h']
  | cons kv rest ih =>
    obtain ⟨k', v'⟩ := kv
    by_cases hk : k' = k
    · subst hk
      simp [recSet, recGet, h']
    · by_cases ha : k' = a
      · subst ha
        simp [recSet, recGet, hk]
      · simp [recSet, recGet, hk, ha, ih]

theorem recGet_recUpdate_self {α : Type} (m : List (String × α)) (k : String)
    (f : α → α) : recGet (recUpdate m k f) k = (recGet m k).map f := by
  induction m with
  | nil => simp [recUpdate, recGet]
  | cons kv rest ih =>
    obtain ⟨k', v'⟩ := kv
    by_cases h : k' = k
    · simp [recUpdate, recGet, h]
    · simp [recUpdate, recGet, h, ih]

theorem recGet_recUpdate_ne {α : Type} (m : List (String × α)) (k a : String)
    (f : α → α) (h : a ≠ k) : recGet (recUpdate m k f) a = recGet m a := by
  have h' : ¬(k = a) := fun hh => h hh.symm
  induction m with
  | nil => simp [recUpdate, recGet]
  | cons kv rest ih =>
    obtain ⟨k', v'⟩ := kv
    by_cases hk : k' = k
    · subst hk
      simp [recUpdate, recGet, h']
    · by_cases ha : k' = a
      · subst ha
        simp [recUpdate, recGet, hk]
      · simp [recUpdate, recGet, hk, ha, ih]

theorem recKeys_recUpdate {α : Type} (m : List (String × α)) (k : String)
    (f : α → α) : recKeys (recUpdate m k f) = recKeys m := by
  induction m with
  | nil => simp [recUpdate]
  | cons kv rest ih =>
    obtain ⟨k', v'⟩ := kv
    by_cases h : k' = k
    · simp [recUpdate, recKeys_cons, h]
    · simp [recUpdate, recKeys_cons, h, ih]

theorem mem_recKeys_recSet {α : Type} (m : List (String × α)) (k a : String) (v : α) :
    a ∈ recKeys (recSet m k v) ↔ a ∈ recKeys m ∨ a = k := by
  induction m with
  | nil => simp [recSet, recKeys]
  | cons kv rest ih =>
    obtain ⟨k', v'⟩ := kv
    by_cases h : k' = k
    · subst h
      simp [recSet, recKeys_cons]
      tauto
    · simp [recSet, recKeys_cons, h, ih]
      tauto

theorem recGet_isSome_iff_mem {α : Type} (m : List (String × α)) (k : String) :
    (recGet m k).isSome = true ↔ k ∈ recKeys m := by
  induction m with
  | nil => simp [recGet, recKeys]
  | cons kv rest ih =>
    obtain ⟨k', v'⟩ := kv
    by_cases h : k' = k
    · subst h
      simp [recGet, recKeys_cons]
    · have h' : ¬(k = k') := fun hh => h hh.symm
      simp [recGet, recKeys_cons, h, h', ih]

/-! # C4: prune correctness -/

theorem recGet_filter_contains (l : List (String × CacheEntry)) (cur : List String)
    (k : String) :
    recGet (l.filter fun kv => cur.contains kv.1) k =
      if k ∈ cur then recGet l k else none := by
  have hfun : (fun kv : String × CacheEntry => cur.contains kv.1) =
      (fun kv => decide (kv.1 ∈ cur)) := by
    funext kv
    simp
  rw [hfun]
  induction l with
  | nil => simp [recGet]
  | cons kv rest ih =>
    obtain ⟨k', v'⟩ := kv
    by_cases hc : k' ∈ cur
    · by_cases hk : k' = k
      · subst hk
        simp [List.filter_cons, hc, recGet, ih]
      · simp [List.filter_cons, hc, recGet, hk, ih]
    · by_cases hk : k' = k
      · subst hk
        simp [List.filter_cons, hc, recGet, ih]
      · simp [List.filter_cons, hc, recGet, hk, ih]

/-- C4: `pruneCache` removes exactly the entries whose keys are absent from
the current file list (their lookups become `none`), returns exactly the
set of removed keys, and leaves every entry whose key is present unchanged
(lookup for a present key is byte-identical, with no condition on the
stored hash); the store version is untouched. -/
theorem pruneCache_removes_exactly_absent :
    ∀ (cache : CacheData) (current : List String),
      (pruneCache cache current).1.version = cache.version
      ∧ (∀ k, recGet (pruneCache cache current).1.entries k =
          if k ∈ current then recGet cache.entries k else none)
      ∧ (∀ k, k ∈ (pruneCache cache current).2 ↔
          (k ∈ recKeys cache.entries ∧ k ∉ current)) := by
  intro cache current
  refine ⟨rfl, fun k => recGet_filter_contains cache.entries current k, fun k => ?_⟩
  simp [pruneCache, List.mem_filter]

/-! # C3: cache loading -/

/-- C3 counterexample: `{"version": 1}` parses, is structurally invalid as
cache data (no `entries` map), yet `loadCache` returns it unchanged rather
than a fresh empty store. -/
theorem loadCache_structurally_invalid_counterexample :
    loadCache (some (some (JsonVal.obj [("version", JsonVal.num 1)]))) ≠ emptyStore
    ∧ loadCache (some (some (JsonVal.obj [("version", JsonVal.num 1)]))) =
        JsonVal.obj [("version", JsonVal.num 1)] := by
  constructor
  · intro h
    have h2 := congrArg hasEntriesField h
    simp [loadCache, jsGetField, jsonFieldGet, versionMatches, CACHE_VERSION,
      hasEntriesField, emptyStore] at h2
  · rfl

/-- C3 (amended): `loadCache` is total (never throws to the caller — every
internal exception is caught); a missing file, a failed read or parse, a
`null` parse result (whose property access throws inside the `try`), and
any parsed value whose `version` field is absent or differs from
`CACHE_VERSION` all yield a fresh empty store at the current version; but
a parsed value whose `version` field equals `CACHE_VERSION` is returned
unchanged, even when structurally invalid (e.g. missing `entries`). -/
theorem loadCache_fresh_store_characterization :
    loadCache none = emptyStore
    ∧ loadCache (some none) = emptyStore
    ∧ (∀ d : JsonVal, jsGetField d "version" = none →
        loadCache (some (some d)) = emptyStore)
    ∧ (∀ (d : JsonVal) (v : Option JsonVal), jsGetField d "version" = some v →
        versionMatches v = false → loadCache (some (some d)) = emptyStore)
    ∧ (∀ (d : JsonVal) (v : Option JsonVal), jsGetField d "version" = some v →
        versionMatches v = true → loadCache (some (some d)) = d) := by
  refine ⟨rfl, rfl, ?_, ?_, ?_⟩
  · intro d h
    simp [loadCache, h]
  · intro d v h hv
    simp [loadCache, h, hv]
  · intro d v h hv
    simp [loadCache, h, hv]

/-- C3 witness: the characterization applied at concrete inputs — a parse
producing the string `"x"` (version access gives `undefined`) yields the
empty store, and a parse producing `null` (property access throws, caught)
yields the empty store. -/
theorem loadCache_fresh_store_witness :
    loadCache (some (some (JsonVal.str "x"))) = emptyStore
    ∧ loadCache (some (some JsonVal.null)) = emptyStore :=
  ⟨loadCache_fresh_store_characterization.2.2.2.1 (JsonVal.str "x") none rfl rfl,
   loadCache_fresh_store_characterization.2.2.1 JsonVal.null rfl⟩

/-! # C7 and C8: classifier -/

/-- C7: a file under a `/schema/` directory classifies as `schema` for
every content — the schema path rule is evaluated before every content
rule — and in particular content with an exported interface declaration
yields `schema`, not `type`. -/
theorem detectCategory_schema_path_wins :
    (∀ content, detectCategory "src/schema/foo.ts" content = FileCategory.schema)
    ∧ detectCategory "src/schema/foo.ts"
        "export interface Foo \x7b id: string \x7d" = FileCategory.schema := by
  constructor
  · intro content
    have h : strIncludes (strToLower "src/schema/foo.ts") "/schema/" = true := by decide
    simp [detectCategory, h]
  · decide

/-- C8 (code bug): content containing the Drizzle table-creation call
`pgTable(` does not classify as `schema`: the source lowercases the
content and then searches it for the mixed-case literal `"pgTable("`,
which can never occur in a lowercased string (the sibling patterns
`"sqlitetable("`, `"mysqltable("` are written in lowercase).  At the
failing input the classifier falls through to `other`; the second
conjunct shows the lowercase pattern the source evidently intended would
have matched. -/
theorem detectCategory_pgTable_dead_pattern :
    detectCategory "db.ts" "export const users = pgTable(x);" = FileCategory.other
    ∧ strIncludes (strToLower "export const users = pgTable(x);") "pgtable(" = true
    ∧ strIncludes (strToLower "export const users = pgTable(x);") "pgTable(" = false := by
  exact ⟨by decide, by decide, by decide⟩

/-! # C1: the cache-hit path -/

/-- C1: when the cache entry for a file is valid for the freshly computed
hash, `analyzeFile` returns the stored entry's category, summary and token
counts tagged `fromCache = true`, leaves the cache unchanged, makes no
external-service call (call count 0), and never acquires a concurrency
slot (the semaphore counter is returned unchanged); and `isCacheValid e h`
holds iff an entry exists whose stored hash equals `h`. -/
theorem analyzeFile_cache_hit_bypasses_limiter
    (hashOf : String → String) (generate : String → String × Nat × Nat)
    (now : String) (fsRead : String → String) (maxConcurrent : Nat)
    (filePath relativePath : String) (cache : CacheData) (running : Nat)
    (h : isCacheValid (getCacheEntry cache relativePath)
          (hashOf (fsRead filePath)) = true) :
    (∃ entry, getCacheEntry cache relativePath = some entry ∧
      analyzeFile hashOf generate now fsRead maxConcurrent
          filePath relativePath cache running =
        some (⟨⟨filePath, relativePath, entry.category, entry.summary,
                hashOf (fsRead filePath), entry.tokensInput, entry.tokensOutput⟩, true⟩,
              cache, running, 0))
    ∧ (∀ (e : Option CacheEntry) (hsh : String),
        isCacheValid e hsh = true ↔ ∃ en, e = some en ∧ en.hash = hsh) := by
  constructor
  · cases hge : getCacheEntry cache relativePath with
    | none =>
      rw [hge] at h
      simp [isCacheValid] at h
    | some entry =>
      refine ⟨entry, rfl, ?_⟩
      rw [hge] at h
      simp only [isCacheValid, beq_iff_eq] at h
      simp [analyzeFile, hge, h]
  · intro e hsh
    cases e with
    | none => simp [isCacheValid]
    | some en => simp [isCacheValid]

/-- C1 witness: the theorem applied to a concrete one-entry cache whose
stored hash matches the hash of the current content. -/
theorem analyzeFile_cache_hit_witness :
    (∃ entry,
      getCacheEntry ⟨1, [("a.ts", ⟨"h1", "sum", FileCategory.util, "t0", 3, 4⟩)]⟩
          "a.ts" = some entry ∧
      analyzeFile (fun _ => "h1") (fun _ => ("s", 1, 2)) "t1" (fun _ => "body") 2
          "/r/a.ts" "a.ts"
          ⟨1, [("a.ts", ⟨"h1", "sum", FileCategory.util, "t0", 3, 4⟩)]⟩ 0 =
        some (⟨⟨"/r/a.ts", "a.ts", entry.category, entry.summary, "h1",
                entry.tokensInput, entry.tokensOutput⟩, true⟩,
              ⟨1, [("a.ts", ⟨"h1", "sum", FileCategory.util, "t0", 3, 4⟩)]⟩, 0, 0))
    ∧ (∀ (e : Option CacheEntry) (hsh : String),
        isCacheValid e hsh = true ↔ ∃ en, e = some en ∧ en.hash = hsh) :=
  analyzeFile_cache_hit_bypasses_limiter (fun _ => "h1") (fun _ => ("s", 1, 2))
    "t1" (fun _ => "body") 2 "/r/a.ts" "a.ts"
    ⟨1, [("a.ts", ⟨"h1", "sum", FileCategory.util, "t0", 3, 4⟩)]⟩ 0 (by decide)

/-! # C6: the semaphore -/

theorem semValid_bounded (c : Nat) (s : SemState) (events : List SemEvent)
    (hs : s.holders.length ≤ c) (hv : semValid c s events = true) :
    (semRun c s events).holders.length ≤ c := by
  induction events generalizing s with
  | nil => simpa [semRun] using hs
  | cons e es ih =>
    have hv' : semEventOk s e = true ∧ semValid c (semStep c s e) es = true := by
      simpa [semValid, Bool.and_eq_true] using hv
    have hstep : (semStep c s e).holders.length ≤ c := by
      cases e with
      | acq t =>
        by_cases hlt : s.holders.length < c
        · simp only [semStep]
          rw [if_pos hlt]
          simp only [List.length_append, List.length_cons, List.length_nil]
          omega
        · simp only [semStep]
          rw [if_neg hlt]
          exact hs
      | rel t =>
        have hmem : t ∈ s.holders := by
          have h1 := hv'.1
          simpa [semEventOk] using h1
        cases hq : s.queue with
        | nil =>
          simp [semStep, hq]
          calc (s.holders.erase t).length ≤ s.holders.length := List.length_erase_le t s.holders
            _ ≤ c := hs
        | cons u rest =>
          have hpos : 0 < s.holders.length := List.length_pos_of_mem hmem
          simp [semStep, hq]
          rw [List.length_erase_of_mem hmem]
          omega
    have hrun : semRun c s (e :: es) = semRun c (semStep c s e) es := rfl
    rw [hrun]
    exact ih (semStep c s e) hstep hv'.2

theorem semValid_take (c : Nat) (events : List SemEvent) :
    ∀ (s : SemState) (n : Nat), semValid c s events = true →
      semValid c s (events.take n) = true := by
  induction events with
  | nil =>
    intro s n _
    simp [semValid]
  | cons e es ih =>
    intro s n hv
    cases n with
    | zero => simp [semValid]
    | succ m =>
      simp only [List.take]
      simp [semValid, Bool.and_eq_true] at hv ⊢
      exact ⟨hv.1, ih _ m hv.2⟩

/-- C6: for a semaphore of capacity `c ≥ 1`, along every valid trace
(releases only by current holders) from the initial state, the number of
simultaneous slot holders never exceeds `c` at any instant (any prefix);
when a slot is released with a non-empty queue, the oldest queued request
is admitted next and the rest of the queue shifts up; and an acquire at
full capacity appends the requester to the back of the queue (FIFO
order). -/
theorem semaphore_bounded_fifo (c : Nat) (hc : 1 ≤ c) :
    (∀ events : List SemEvent, semValid c semInit events = true →
      ∀ n, (semRun c semInit (events.take n)).holders.length ≤ c)
    ∧ (∀ (s : SemState) (t u : Nat) (rest : List Nat), t ∈ s.holders →
        s.queue = u :: rest →
        semStep c s (SemEvent.rel t) = ⟨s.holders.erase t ++ [u], rest⟩)
    ∧ (∀ (s : SemState) (t : Nat), ¬s.holders.length < c →
        semStep c s (SemEvent.acq t) = ⟨s.holders, s.queue ++ [t]⟩) := by
  refine ⟨?_, ?_, ?_⟩
  · intro events hv n
    exact semValid_bounded c semInit (events.take n) (by simp [semInit])
      (semValid_take c events semInit n hv)
  · intro s t u rest _ hq
    simp [semStep, hq]
  · intro s t hlt
    simp [semStep, hlt]

/-- C6 witness: capacity 2, five tasks acquiring then two releases; after
the first five events at most 2 tasks hold a slot. -/
theorem semaphore_bounded_fifo_witness :
    (semRun 2 semInit
      ([SemEvent.acq 0, SemEvent.acq 1, SemEvent.acq 2, SemEvent.acq 3,
        SemEvent.acq 4, SemEvent.rel 0, SemEvent.rel 1].take 5)).holders.length ≤ 2 :=
  (semaphore_bounded_fifo 2 (by decide)).1
    [SemEvent.acq 0, SemEvent.acq 1, SemEvent.acq 2, SemEvent.acq 3,
     SemEvent.acq 4, SemEvent.rel 0, SemEvent.rel 1] (by decide) 5

/-! # C9: discovery of a nonexistent root -/

theorem foldl_glob_nil (fs : FSModel) (rootDir : String)
    (h2 : ∀ pat, fs.glob pat rootDir = []) :
    ∀ (pats : List String) (acc : List String),
      pats.foldl (fun acc pat => acc ++ fs.glob pat rootDir) acc = acc := by
  intro pats
  induction pats with
  | nil => intro acc; rfl
  | cons p ps ih =>
    intro acc
    simp only [List.foldl]
    rw [h2 p, List.append_nil]
    exact ih acc

/-- C9 counterexample: on a file system where the root does not exist (no
path exists, every read rejects, every glob yields no matches),
`discoverFiles` does not fail — it returns the empty file list.  No
`RootNotFound` error exists in the code; the only error the function can
surface is a failed `.gitignore` read, which does not occur here. -/
theorem discoverFiles_missing_root_counterexample :
    discoverFiles ⟨fun _ => false, fun _ => none, fun _ _ => []⟩ (fun _ _ => false)
        "/missing" DEFAULT_CONFIG = .ok []
    ∧ discoverFiles ⟨fun _ => false, fun _ => none, fun _ _ => []⟩ (fun _ _ => false)
        "/missing" DEFAULT_CONFIG ≠ .error .readFailed := by
  have he : discoverFiles ⟨fun _ => false, fun _ => none, fun _ _ => []⟩
      (fun _ _ => false) "/missing" DEFAULT_CONFIG = .ok [] := rfl
  refine ⟨he, ?_⟩
  rw [he]
  intro h
  exact Except.noConfusion h

/-- C9 (amended): `discoverFiles` performs no root-existence check.
Whenever the `.gitignore` probe is negative and every glob pattern yields
no matches — exactly what its collaborators report for a nonexistent root
directory — it returns `ok []`: an empty file list is surfaced to the
caller, not an error. -/
theorem discoverFiles_no_root_check (fs : FSModel)
    (igEngine : List String → String → Bool) (rootDir : String)
    (config : CliffnotesConfig)
    (h1 : fs.existsSync (pathResolve rootDir ".gitignore") = false)
    (h2 : ∀ pat, fs.glob pat rootDir = []) :
    discoverFiles fs igEngine rootDir config = .ok [] := by
  simp [discoverFiles, h1, foldl_glob_nil fs rootDir h2, jsSetDedup, jsSetDedupAux,
    sortStrings]

/-- C9 witness: the amended theorem applied to a concrete file system with
no existing paths and empty glob results. -/
theorem discoverFiles_no_root_check_witness :
    discoverFiles ⟨fun _ => false, fun _ => some "", fun _ _ => []⟩ (fun _ _ => true)
        "/nowhere" DEFAULT_CONFIG = .ok [] :=
  discoverFiles_no_root_check ⟨fun _ => false, fun _ => some "", fun _ _ => []⟩
    (fun _ _ => true) "/nowhere" DEFAULT_CONFIG rfl (fun _ => rfl)

/-! # C2: second-run idempotence -/

theorem getCacheEntry_setCacheEntry_self (cache : CacheData) (rel : String)
    (e : CacheEntry) : getCacheEntry (setCacheEntry cache rel e) rel = some e :=
  recGet_recSet_self cache.entries rel e

theorem getCacheEntry_setCacheEntry_ne (cache : CacheData) (rel a : String)
    (e : CacheEntry) (h : a ≠ rel) :
    getCacheEntry (setCacheEntry cache rel e) a = getCacheEntry cache a :=
  recGet_recSet_ne cache.entries rel a e h

theorem analyzeFileMiss_post (hashOf : String → String)
    (generate : String → String × Nat × Nat) (now : String)
    (fsRead : String → String) (maxConcurrent : Nat)
    (filePath relativePath : String) (cache : CacheData) (running : Nat)
    (hash : String) (r : AnalyzeFileResult) (c' : CacheData) (run' n : Nat)
    (h : analyzeFileMiss hashOf generate now fsRead maxConcurrent
          filePath relativePath cache running hash = some (r, c', run', n)) :
    ∃ e : CacheEntry, c' = setCacheEntry cache relativePath e ∧ e.hash = hash := by
  simp only [analyzeFileMiss] at h
  by_cases hrun : running < maxConcurrent
  · rw [if_pos hrun] at h
    by_cases hskip :
        ((fsRead filePath).data.length > 100000 || isMinified (fsRead filePath)) = true
    · rw [if_pos hskip] at h
      simp only [Option.some.injEq, Prod.mk.injEq] at h
      exact ⟨_, h.2.1.symm, rfl⟩
    · rw [if_neg hskip] at h
      simp only [Option.some.injEq, Prod.mk.injEq] at h
      exact ⟨_, h.2.1.symm, rfl⟩
  · rw [if_neg hrun] at h
    exact absurd h (by simp)

/-- After a completed `analyzeFile`, the cache holds a valid entry for the
file (its stored hash is the current hash), and no other key changed. -/
theorem analyzeFile_post (hashOf : String → String)
    (generate : String → String × Nat × Nat) (now : String)
    (fsRead : String → String) (maxConcurrent : Nat)
    (filePath relativePath : String) (cache : CacheData) (running : Nat)
    (r : AnalyzeFileResult) (c' : CacheData) (run' n : Nat)
    (h : analyzeFile hashOf generate now fsRead maxConcurrent
          filePath relativePath cache running = some (r, c', run', n)) :
    (∃ e, getCacheEntry c' relativePath = some e ∧ e.hash = hashOf (fsRead filePath))
    ∧ (∀ a, a ≠ relativePath → getCacheEntry c' a = getCacheEntry cache a) := by
  have hmiss : ∀ hmv : analyzeFileMiss hashOf generate now fsRead maxConcurrent
      filePath relativePath cache running (hashOf (fsRead filePath)) =
        some (r, c', run', n),
      (∃ e, getCacheEntry c' relativePath = some e ∧ e.hash = hashOf (fsRead filePath))
      ∧ (∀ a, a ≠ relativePath → getCacheEntry c' a = getCacheEntry cache a) := by
    intro hmv
    obtain ⟨e, hce, hhash⟩ := analyzeFileMiss_post hashOf generate now fsRead
      maxConcurrent filePath relativePath cache running (hashOf (fsRead filePath))
      r c' run' n hmv
    subst hce
    refine ⟨⟨e, getCacheEntry_setCacheEntry_self cache relativePath e, hhash⟩, ?_⟩
    intro a ha
    exact getCacheEntry_setCacheEntry_ne cache relativePath a e ha
  simp only [analyzeFile] at h
  split at h
  next entry hge =>
    by_cases hbe : (entry.hash == hashOf (fsRead filePath)) = true
    · rw [if_pos hbe] at h
      simp only [Option.some.injEq, Prod.mk.injEq] at h
      refine ⟨⟨entry, ?_, ?_⟩, ?_⟩
      · rw [← h.2.1]
        exact hge
      · exact beq_iff_eq.mp hbe
      · intro a _
        rw [← h.2.1]
    · rw [if_neg hbe] at h
      exact hmiss h
  next hge =>
    exact hmiss h

theorem analyzeFilesGo_frame (hashOf : String → String)
    (generate : String → String × Nat × Nat) (now : String)
    (fsRead : String → String) (maxConcurrent : Nat) :
    ∀ (files : List (String × String)) (cache : CacheData) (running : Nat)
      (rs : List AnalyzeFileResult) (cF : CacheData) (runF n : Nat),
      analyzeFilesGo hashOf generate now fsRead maxConcurrent files cache running =
        some (rs, cF, runF, n) →
      ∀ a, a ∉ files.map Prod.snd → getCacheEntry cF a = getCacheEntry cache a := by
  intro files
  induction files with
  | nil =>
    intro cache running rs cF runF n h a _
    simp only [analyzeFilesGo, Option.some.injEq, Prod.mk.injEq] at h
    rw [← h.2.1]
  | cons f rest ih =>
    intro cache running rs cF runF n h a ha
    obtain ⟨fp, rel⟩ := f
    simp only [analyzeFilesGo] at h
    split at h
    next h1 => exact absurd h (by simp)
    next r c1 run1 n1 h1 =>
      split at h
      next h2 => exact absurd h (by simp)
      next rs2 c2 run2 n2 h2 =>
        simp only [Option.some.injEq, Prod.mk.injEq] at h
        have hane : a ≠ rel := by
          intro hh
          exact ha (by simp [hh])
        have harest : a ∉ rest.map Prod.snd := by
          intro hh
          exact ha (by simp [hh])
        calc getCacheEntry cF a
            = getCacheEntry c2 a := by rw [← h.2.1]
          _ = getCacheEntry c1 a := ih c1 run1 rs2 c2 run2 n2 h2 a harest
          _ = getCacheEntry cache a :=
              (analyzeFile_post hashOf generate now fsRead maxConcurrent
                fp rel cache running r c1 run1 n1 h1).2 a hane

/-- After a completed first run over files with pairwise distinct relative
paths, every file has a valid cache entry for its current content hash. -/
theorem analyzeFilesGo_valid (hashOf : String → String)
    (generate : String → String × Nat × Nat) (now : String)
    (fsRead : String → String) (maxConcurrent : Nat) :
    ∀ (files : List (String × String)) (cache : CacheData) (running : Nat)
      (rs : List AnalyzeFileResult) (cF : CacheData) (runF n : Nat),
      (files.map Prod.snd).Nodup →
      analyzeFilesGo hashOf generate now fsRead maxConcurrent files cache running =
        some (rs, cF, runF, n) →
      ∀ fp rel, (fp, rel) ∈ files →
        ∃ e, getCacheEntry cF rel = some e ∧ e.hash = hashOf (fsRead fp) := by
  intro files
  induction files with
  | nil =>
    intro cache running rs cF runF n _ _ fp rel hmem
    exact absurd hmem (by simp)
  | cons f rest ih =>
    intro cache running rs cF runF n hnd h fp rel hmem
    obtain ⟨fp0, rel0⟩ := f
    simp only [analyzeFilesGo] at h
    split at h
    next h1 => exact absurd h (by simp)
    next r c1 run1 n1 h1 =>
      split at h
      next h2 => exact absurd h (by simp)
      next rs2 c2 run2 n2 h2 =>
        simp only [Option.some.injEq, Prod.mk.injEq] at h
        have hcF : cF = c2 := h.2.1.symm
        rcases List.mem_cons.mp hmem with hhead | htail
        · have he1 : fp = fp0 := (Prod.mk.injEq fp rel fp0 rel0 ▸ hhead).1
          have he2 : rel = rel0 := (Prod.mk.injEq fp rel fp0 rel0 ▸ hhead).2
          subst he1
          subst he2
          have hpost := (analyzeFile_post hashOf generate now fsRead maxConcurrent
            fp rel cache running r c1 run1 n1 h1).1
          have hnotin : rel ∉ rest.map Prod.snd := by
            have hx := hnd
            simp only [List.map_cons, List.nodup_cons] at hx
            exact hx.1
          have hframe := analyzeFilesGo_frame hashOf generate now fsRead maxConcurrent
            rest c1 run1 rs2 c2 run2 n2 h2 rel hnotin
          rw [hcF, hframe]
          exact hpost
        · have hnd' : (rest.map Prod.snd).Nodup := by
            have hx := hnd
            simp only [List.map_cons, List.nodup_cons] at hx
            exact hx.2
          rw [hcF]
          exact ih c1 run1 rs2 c2 run2 n2 hnd' h2 fp rel htail

/-- When every file already has a valid cache entry, the whole run takes
the hit path on every file: the cache and semaphore counter come back
unchanged, no external call is made, and every result is from cache. -/
theorem analyzeFilesGo_all_hits (hashOf : String → String)
    (generate : String → String × Nat × Nat) (now : String)
    (fsRead : String → String) (maxConcurrent : Nat) :
    ∀ (files : List (String × String)) (cache : CacheData) (running : Nat),
      (∀ fp rel, (fp, rel) ∈ files →
        ∃ e, getCacheEntry cache rel = some e ∧ e.hash = hashOf (fsRead fp)) →
      ∃ rs, analyzeFilesGo hashOf generate now fsRead maxConcurrent
          files cache running = some (rs, cache, running, 0)
        ∧ ∀ r ∈ rs, r.fromCache = true := by
  intro files
  induction files with
  | nil =>
    intro cache running _
    exact ⟨[], rfl, by simp⟩
  | cons f rest ih =>
    intro cache running hvalid
    obtain ⟨fp0, rel0⟩ := f
    obtain ⟨e, hge, hhash⟩ := hvalid fp0 rel0 (by simp)
    have hhit : analyzeFile hashOf generate now fsRead maxConcurrent
        fp0 rel0 cache running =
        some (⟨⟨fp0, rel0, e.category, e.summary, hashOf (fsRead fp0),
                e.tokensInput, e.tokensOutput⟩, true⟩, cache, running, 0) := by
      simp [analyzeFile, hge, hhash]
    obtain ⟨rs, hrs, hfc⟩ := ih cache running
      (fun fp rel hmem => hvalid fp rel (by simp [hmem]))
    refine ⟨⟨⟨fp0, rel0, e.category, e.summary, hashOf (fsRead fp0),
              e.tokensInput, e.tokensOutput⟩, true⟩ :: rs, ?_, ?_⟩
    · simp only [analyzeFilesGo, hhit, hrs]
    · intro r hr
      rcases List.mem_cons.mp hr with hr | hr
      · rw [hr]
      · exact hfc r hr

/-- C2: if a run of the pipeline over files with pairwise distinct relative
paths completes with final cache `c₁`, then a second run over the same
(unchanged) files starting from `c₁` — i.e. from exactly the store the
first run saved and the second run's `loadCache` returned — completes with
the identical cache `c₁` (every `CacheEntry` byte-identical to the first
run's), makes zero external-service calls, and serves every file from
cache. -/
theorem pipeline_second_run_idempotent (hashOf : String → String)
    (generate : String → String × Nat × Nat) (now : String)
    (fsRead : String → String) (concurrency : Nat)
    (files : List (String × String)) (cache0 : CacheData)
    (rs1 : List AnalyzeFileResult) (c1 : CacheData) (n1 : Nat)
    (hnd : (files.map Prod.snd).Nodup)
    (h : analyzeFiles hashOf generate now fsRead concurrency files cache0 =
          some (rs1, c1, n1)) :
    ∃ rs2, analyzeFiles hashOf generate now fsRead concurrency files c1 =
        some (rs2, c1, 0)
      ∧ ∀ r ∈ rs2, r.fromCache = true := by
  simp only [analyzeFiles] at h
  cases hgo : analyzeFilesGo hashOf generate now fsRead concurrency files cache0 0 with
  | none => rw [hgo] at h; exact absurd h (by simp)
  | some out =>
    obtain ⟨rs, cF, runF, calls⟩ := out
    rw [hgo] at h
    simp only [Option.some.injEq, Prod.mk.injEq] at h
    have hc1 : cF = c1 := h.2.1
    subst hc1
    have hvalid := analyzeFilesGo_valid hashOf generate now fsRead concurrency
      files cache0 0 rs cF runF calls hnd hgo
    obtain ⟨rs2, hrs2, hfc⟩ := analyzeFilesGo_all_hits hashOf generate now fsRead
      concurrency files cF 0 (fun fp rel hmem => hvalid fp rel hmem)
    refine ⟨rs2, ?_, hfc⟩
    simp only [analyzeFiles, hrs2]

/-- C2 witness: a concrete one-file pipeline.  The first run misses and
analyzes the file; the second run, started from exactly the store the
first run produced, returns the identical store with zero external calls
and serves the file from cache. -/
theorem pipeline_second_run_idempotent_witness :
    ∃ rs2, analyzeFiles (fun s => s) (fun _ => ("s", 1, 2)) "t" (fun _ => "x") 1
        [("f1", "a.ts")]
        ⟨1, [("a.ts", ⟨"x", "s", FileCategory.other, "t", 1, 2⟩)]⟩ =
      some (rs2, ⟨1, [("a.ts", ⟨"x", "s", FileCategory.other, "t", 1, 2⟩)]⟩, 0)
      ∧ ∀ r ∈ rs2, r.fromCache = true :=
  pipeline_second_run_idempotent (fun s => s) (fun _ => ("s", 1, 2)) "t"
    (fun _ => "x") 1 [("f1", "a.ts")] ⟨1, []⟩
    [⟨⟨"f1", "a.ts", FileCategory.other, "s", "x", 1, 2⟩, false⟩]
    ⟨1, [("a.ts", ⟨"x", "s", FileCategory.other, "t", 1, 2⟩)]⟩ 1
    (by decide) rfl

/-! # Lemmas: path splitting and joining -/

theorem splitChar_ne_nil (sep : Char) (l : List Char) : splitChar sep l ≠ [] := by
  cases l with
  | nil => simp [splitChar]
  | cons c rest =>
    simp only [splitChar]
    cases h : splitChar sep rest with
    | nil => simp
    | cons s ss => by_cases hc : c = sep <;> simp [hc]

theorem mem_splitChar_no_sep (sep : Char) (l : List Char) :
    ∀ s ∈ splitChar sep l, sep ∉ s := by
  induction l with
  | nil =>
    intro s hs
    simp [splitChar] at hs
    simp [hs]
  | cons c rest ih =>
    intro s hs
    cases h : splitChar sep rest with
    | nil => exact absurd h (splitChar_ne_nil sep rest)
    | cons s0 ss =>
      simp only [splitChar, h] at hs
      by_cases hc : c = sep
      · rw [if_pos hc] at hs
        rcases List.mem_cons.mp hs with hs | hs
        · simp [hs]
        · exact ih s (h ▸ hs)
      · rw [if_neg hc] at hs
        rcases List.mem_cons.mp hs with hs | hs
        · subst hs
          intro hmem
          rcases List.mem_cons.mp hmem with hm | hm
          · exact hc hm.symm
          · exact ih s0 (h ▸ List.mem_cons_self s0 ss) hm
        · exact ih s (h ▸ List.mem_cons.mpr (Or.inr hs))

theorem splitChar_of_no_sep (sep : Char) (l : List Char) (h : sep ∉ l) :
    splitChar sep l = [l] := by
  induction l with
  | nil => rfl
  | cons c rest ih =>
    have hc : c ≠ sep := fun hh => h (hh ▸ List.mem_cons_self c rest)
    have hrest : sep ∉ rest := fun hh => h (List.mem_cons.mpr (Or.inr hh))
    simp only [splitChar, ih hrest]
    simp [fun hh : c = sep => hc hh]

theorem splitChar_append_sep (sep : Char) (t : List Char) :
    ∀ x : List Char, sep ∉ x → splitChar sep (x ++ sep :: t) = x :: splitChar sep t := by
  intro x
  induction x with
  | nil =>
    intro _
    simp only [List.nil_append, splitChar]
    cases h : splitChar sep t with
    | nil => exact absurd h (splitChar_ne_nil sep t)
    | cons s ss => simp
  | cons c x' ih =>
    intro hx
    have hc : c ≠ sep := fun hh => hx (hh ▸ List.mem_cons_self c x')
    have hx' : sep ∉ x' := fun hh => hx (List.mem_cons.mpr (Or.inr hh))
    rw [List.cons_append]
    rw [show splitChar sep (c :: (x' ++ sep :: t)) =
        (match splitChar sep (x' ++ sep :: t) with
         | [] => [[c]]
         | s :: ss => if c = sep then [] :: s :: ss else (c :: s) :: ss) from rfl]
    rw [ih hx']
    simp [fun hh : c = sep => hc hh]

theorem intercalate_cons_cons {α : Type} (sep x y : List α) (l : List (List α)) :
    List.intercalate sep (x :: y :: l) = x ++ (sep ++ List.intercalate sep (y :: l)) := by
  simp [List.intercalate, List.intersperse]

theorem intercalate_singleton {α : Type} (sep x : List α) :
    List.intercalate sep [x] = x := by
  simp [List.intercalate, List.intersperse]

theorem splitChar_intercalate (sep : Char) :
    ∀ (xs : List (List Char)), xs ≠ [] → (∀ x ∈ xs, sep ∉ x) →
      splitChar sep (List.intercalate [sep] xs) = xs := by
  intro xs
  induction xs with
  | nil => intro h; exact absurd rfl h
  | cons x rest ih =>
    intro _ hns
    cases rest with
    | nil =>
      rw [intercalate_singleton]
      exact splitChar_of_no_sep sep x (hns x (List.mem_cons_self x []))
    | cons y rest' =>
      rw [intercalate_cons_cons]
      have hx : sep ∉ x := hns x (List.mem_cons_self x (y :: rest'))
      have hrest : ∀ z ∈ y :: rest', sep ∉ z := fun z hz =>
        hns z (List.mem_cons.mpr (Or.inr hz))
      have hr := ih (by simp) hrest
      calc splitChar sep (x ++ ([sep] ++ List.intercalate [sep] (y :: rest')))
          = splitChar sep (x ++ sep :: List.intercalate [sep] (y :: rest')) := by
            simp
        _ = x :: splitChar sep (List.intercalate [sep] (y :: rest')) :=
            splitChar_append_sep sep (List.intercalate [sep] (y :: rest')) x hx
        _ = x :: y :: rest' := by rw [hr]

theorem intercalate_append_singleton {α : Type} (sep : List α) :
    ∀ (l : List (List α)), l ≠ [] → ∀ (y : List α),
      List.intercalate sep (l ++ [y]) = List.intercalate sep l ++ sep ++ y := by
  intro l
  induction l with
  | nil => intro h; exact absurd rfl h
  | cons x rest ih =>
    intro _ y
    cases rest with
    | nil =>
      rw [List.cons_append, List.nil_append, intercalate_cons_cons,
        intercalate_singleton, intercalate_singleton]
      simp [List.append_assoc]
    | cons z rest' =>
      have hr := ih (by simp) y
      simp only [List.cons_append] at hr ⊢
      rw [intercalate_cons_cons, hr, intercalate_cons_cons]
      simp [List.append_assoc]

theorem string_mk_data (s : String) : String.mk s.data = s := rfl

theorem splitPath_ne_nil (s : String) : splitPath s ≠ [] := by
  intro h
  have h2 := congrArg List.length h
  simp only [splitPath, List.length_map, List.length_nil] at h2
  exact splitChar_ne_nil '/' s.data (List.length_eq_zero.mp h2)

theorem mem_splitPath_no_slash (s : String) :
    ∀ x ∈ splitPath s, '/' ∉ x.data := by
  intro x hx
  simp only [splitPath, List.mem_map] at hx
  obtain ⟨seg, hseg, hmk⟩ := hx
  rw [← hmk]
  exact mem_splitChar_no_sep '/' s.data seg hseg

theorem splitPath_joinPath (xs : List String) (hne : xs ≠ [])
    (hns : ∀ x ∈ xs, '/' ∉ x.data) : splitPath (joinPath xs) = xs := by
  simp only [splitPath, joinPath]
  rw [splitChar_intercalate '/' (xs.map String.data)
    (by simpa using hne)
    (by
      intro x hx
      simp only [List.mem_map] at hx
      obtain ⟨s, hs, hd⟩ := hx
      rw [← hd]
      exact hns s hs)]
  rw [List.map_map]
  have : (String.mk ∘ String.data) = id := by
    funext s
    rfl
  rw [this, List.map_id]

theorem joinPath_singleton (x : String) : joinPath [x] = x := by
  simp only [joinPath, List.map_cons, List.map_nil, intercalate_singleton]

theorem joinPath_append_singleton (xs : List String) (hne : xs ≠ []) (y : String) :
    joinPath (xs ++ [y]) = joinPath xs ++ "/" ++ y := by
  simp only [joinPath, List.map_append, List.map_cons, List.map_nil]
  rw [intercalate_append_singleton ['/'] (xs.map String.data) (by simpa using hne) y.data]
  rfl

/-! # Lemmas: folder-tree key closure -/

theorem recKeys_ensureStep_superset (parts : List String)
    (m : List (String × FolderInfo)) (i : Nat) :
    ∀ a ∈ recKeys m, a ∈ recKeys (ensureStep parts m i) := by
  intro a ha
  simp only [ensureStep]
  by_cases hget : (recGet m (ancestorAt parts i)).isSome = true
  · rw [if_pos hget, recKeys_recUpdate]
    exact ha
  · rw [if_neg hget, recKeys_recUpdate]
    exact (mem_recKeys_recSet m (ancestorAt parts i) a _).mpr (Or.inl ha)

theorem ancestor_mem_ensureStep (parts : List String)
    (m : List (String × FolderInfo)) (i : Nat) :
    ancestorAt parts i ∈ recKeys (ensureStep parts m i) := by
  simp only [ensureStep]
  by_cases hget : (recGet m (ancestorAt parts i)).isSome = true
  · rw [if_pos hget, recKeys_recUpdate]
    exact (recGet_isSome_iff_mem m (ancestorAt parts i)).mp hget
  · rw [if_neg hget, recKeys_recUpdate]
    exact (mem_recKeys_recSet m (ancestorAt parts i) _ _).mpr (Or.inr rfl)

theorem recKeys_ensureStep_subset (parts : List String)
    (m : List (String × FolderInfo)) (i : Nat) :
    ∀ a ∈ recKeys (ensureStep parts m i), a ∈ recKeys m ∨ a = ancestorAt parts i := by
  intro a ha
  simp only [ensureStep] at ha
  by_cases hget : (recGet m (ancestorAt parts i)).isSome = true
  · rw [if_pos hget, recKeys_recUpdate] at ha
    exact Or.inl ha
  · rw [if_neg hget, recKeys_recUpdate] at ha
    exact (mem_recKeys_recSet m (ancestorAt parts i) a _).mp ha

theorem recKeys_foldlEnsure_superset (parts : List String) :
    ∀ (n : Nat) (m : List (String × FolderInfo)),
      ∀ a ∈ recKeys m, a ∈ recKeys ((List.range n).foldl (ensureStep parts) m) := by
  intro n
  induction n with
  | zero => intro m a ha; simpa using ha
  | succ k ih =>
    intro m a ha
    rw [List.range_succ, List.foldl_append]
    exact recKeys_ensureStep_superset parts _ k _
      (ih m a ha)

theorem ancestor_mem_foldlEnsure (parts : List String) :
    ∀ (n : Nat) (m : List (String × FolderInfo)) (i : Nat), i < n →
      ancestorAt parts i ∈ recKeys ((List.range n).foldl (ensureStep parts) m) := by
  intro n
  induction n with
  | zero => intro m i hi; exact absurd hi (by omega)
  | succ k ih =>
    intro m i hi
    rw [List.range_succ, List.foldl_append]
    by_cases hik : i < k
    · exact recKeys_ensureStep_superset parts _ k _ (ih m i hik)
    · have : i = k := by omega
      subst this
      exact ancestor_mem_ensureStep parts _ i

theorem recKeys_foldlEnsure_subset (parts : List String) :
    ∀ (n : Nat) (m : List (String × FolderInfo)),
      ∀ a ∈ recKeys ((List.range n).foldl (ensureStep parts) m),
        a ∈ recKeys m ∨ ∃ i, i < n ∧ a = ancestorAt parts i := by
  intro n
  induction n with
  | zero => intro m a ha; exact Or.inl (by simpa using ha)
  | succ k ih =>
    intro m a ha
    rw [List.range_succ, List.foldl_append] at ha
    rcases recKeys_ensureStep_subset parts _ k a (by simpa using ha) with h | h
    · rcases ih m a h with h2 | ⟨i, hik, hai⟩
      · exact Or.inl h2
      · exact Or.inr ⟨i, by omega, hai⟩
    · exact Or.inr ⟨k, by omega, h⟩

theorem recKeys_pass2Step_superset (m : List (String × FolderInfo)) (path : String) :
    ∀ a ∈ recKeys m, a ∈ recKeys (pass2Step m path) := by
  intro a ha
  simp only [pass2Step]
  by_cases hdot : path = "."
  · rw [if_pos hdot]; exact ha
  · rw [if_neg hdot]
    exact recKeys_foldlEnsure_superset (splitPath path) _ m a ha

theorem recKeys_pass2Step_subset (m : List (String × FolderInfo)) (path : String) :
    ∀ a ∈ recKeys (pass2Step m path),
      a ∈ recKeys m ∨ ∃ i, i < (splitPath path).length ∧ a = ancestorAt (splitPath path) i := by
  intro a ha
  simp only [pass2Step] at ha
  by_cases hdot : path = "."
  · rw [if_pos hdot] at ha; exact Or.inl ha
  · rw [if_neg hdot] at ha
    exact recKeys_foldlEnsure_subset (splitPath path) _ m a ha

theorem ancestors_mem_pass2Step (m : List (String × FolderInfo)) (path : String)
    (hne : path ≠ ".") (i : Nat) (hi : i < (splitPath path).length) :
    ancestorAt (splitPath path) i ∈ recKeys (pass2Step m path) := by
  simp only [pass2Step]
  rw [if_neg hne]
  exact ancestor_mem_foldlEnsure (splitPath path) _ m i hi

theorem recKeys_pass2_superset (paths : List String) :
    ∀ (m : List (String × FolderInfo)) (a : String), a ∈ recKeys m →
      a ∈ recKeys (paths.foldl pass2Step m) := by
  induction paths with
  | nil => intro m a ha; exact ha
  | cons q rest ih =>
    intro m a ha
    exact ih (pass2Step m q) a (recKeys_pass2Step_superset m q a ha)

theorem recKeys_pass2_subset (paths : List String) :
    ∀ (m : List (String × FolderInfo)) (a : String),
      a ∈ recKeys (paths.foldl pass2Step m) →
      a ∈ recKeys m ∨ ∃ q ∈ paths, q ≠ "." ∧
        ∃ i, i < (splitPath q).length ∧ a = ancestorAt (splitPath q) i := by
  induction paths with
  | nil => intro m a ha; exact Or.inl ha
  | cons q rest ih =>
    intro m a ha
    rcases ih (pass2Step m q) a ha with h | ⟨q', hq', hne', i, hi, hai⟩
    · rcases recKeys_pass2Step_subset m q a h with h2 | ⟨i, hi, hai⟩
      · exact Or.inl h2
      · by_cases hdot : q = "."
        · subst hdot
          simp only [pass2Step, if_pos rfl] at h
          exact Or.inl h
        · exact Or.inr ⟨q, by simp, hdot, i, hi, hai⟩
    · exact Or.inr ⟨q', by simp [hq'], hne', i, hi, hai⟩

theorem ancestors_mem_pass2 (paths : List String) :
    ∀ (m : List (String × FolderInfo)) (q : String), q ∈ paths → q ≠ "." →
      ∀ i, i < (splitPath q).length →
        ancestorAt (splitPath q) i ∈ recKeys (paths.foldl pass2Step m) := by
  induction paths with
  | nil => intro m q hq; exact absurd hq (by simp)
  | cons p rest ih =>
    intro m q hq hne i hi
    rcases List.mem_cons.mp hq with hq | hq
    · subst hq
      exact recKeys_pass2_superset rest (pass2Step m q) _
        (ancestors_mem_pass2Step m q hne i hi)
    · exact ih (pass2Step m p) q hq hne i hi

theorem recKeys_sortSubfolders (m : List (String × FolderInfo)) :
    recKeys (m.map fun kf => (kf.1, { kf.2 with subfolders := sortStrings kf.2.subfolders }))
      = recKeys m := by
  simp only [recKeys, List.map_map]
  rfl

theorem ancestorAt_zero (parts : List String) : ancestorAt parts 0 = "." := rfl

/-- In the key-closure argument: an ancestor of an ancestor at a lower
level is an ancestor of the original path. -/
theorem ancestorAt_take (parts : List String) (j i : Nat) (hji : j ≤ i) :
    ancestorAt (parts.take i) j = ancestorAt parts j := by
  by_cases hj : j = 0
  · subst hj; rfl
  · simp only [ancestorAt, if_neg hj]
    rw [List.take_take, Nat.min_eq_left hji]

/-- C5: in every tree built by `buildFolderTree`, every non-root folder
path in the folders map has all of its ancestor paths — level 0 is the
root sentinel `"."`, level `i` joins the first `i` path segments — present
in the map as well; and on the concrete input
`["a.ts", "sub/b.ts", "sub/deep/c.ts"]` the tree contains folders `"."`,
`"sub"`, `"sub/deep"` with depths 0, 1, 2, the subfolder list of `"."` is
`["sub"]` and the subfolder list of `"sub"` is `["deep"]`. -/
theorem buildFolderTree_ancestor_closure :
    (∀ (analyses : List FileAnalysis) (p : String),
      p ∈ recKeys (buildFolderTree analyses).folders → p ≠ "." →
      ∀ i, i < (splitPath p).length →
        ancestorAt (splitPath p) i ∈ recKeys (buildFolderTree analyses).folders)
    ∧ ((recGet (buildFolderTree
          [⟨"a.ts", "a.ts", FileCategory.other, "", "", 0, 0⟩,
           ⟨"sub/b.ts", "sub/b.ts", FileCategory.other, "", "", 0, 0⟩,
           ⟨"sub/deep/c.ts", "sub/deep/c.ts", FileCategory.other, "", "", 0, 0⟩]).folders
          ".").map (fun f => (f.depth, f.subfolders)) = some (0, ["sub"])
      ∧ (recGet (buildFolderTree
          [⟨"a.ts", "a.ts", FileCategory.other, "", "", 0, 0⟩,
           ⟨"sub/b.ts", "sub/b.ts", FileCategory.other, "", "", 0, 0⟩,
           ⟨"sub/deep/c.ts", "sub/deep/c.ts", FileCategory.other, "", "", 0, 0⟩]).folders
          "sub").map (fun f => (f.depth, f.subfolders)) = some (1, ["deep"])
      ∧ (recGet (buildFolderTree
          [⟨"a.ts", "a.ts", FileCategory.other, "", "", 0, 0⟩,
           ⟨"sub/b.ts", "sub/b.ts", FileCategory.other, "", "", 0, 0⟩,
           ⟨"sub/deep/c.ts", "sub/deep/c.ts", FileCategory.other, "", "", 0, 0⟩]).folders
          "sub/deep").map (fun f => f.depth) = some 2) := by
  constructor
  · intro analyses p hp hne i hi
    simp only [buildFolderTree, recKeys_sortSubfolders] at hp ⊢
    rcases recKeys_pass2_subset (recKeys (analyses.foldl pass1Step []))
        (analyses.foldl pass1Step []) p hp with hp1 | ⟨q, hq, hqne, j, hj, hpj⟩
    · exact ancestors_mem_pass2 _ _ p hp1 hne i hi
    · have hj1 : j ≠ 0 := by
        intro hj0
        subst hj0
        exact hne (hpj.trans (ancestorAt_zero (splitPath q)))
      have hsplit : splitPath p = (splitPath q).take j := by
        rw [hpj]
        simp only [ancestorAt, if_neg hj1]
        refine splitPath_joinPath _ ?_ ?_
        · intro hempty
          have := congrArg List.length hempty
          simp only [List.length_take, List.length_nil] at this
          omega
        · intro x hx
          exact mem_splitPath_no_slash q x (List.mem_of_mem_take hx)
      have hlen : (splitPath p).length = j := by
        rw [hsplit, List.length_take]
        omega
      have hij : i < j := by omega
      have hanc : ancestorAt (splitPath p) i = ancestorAt (splitPath q) i := by
        rw [hsplit]
        exact ancestorAt_take (splitPath q) i j (by omega)
      rw [hanc]
      exact ancestors_mem_pass2 _ _ q hq hqne i (by omega)
  · refine ⟨by decide, by decide, by decide⟩

/-- C5 witness: the closure theorem applied to the three concrete files —
the level-1 ancestor `"sub"` of `"sub/deep"` is in the folders map. -/
theorem buildFolderTree_ancestor_closure_witness :
    ancestorAt (splitPath "sub/deep") 1 ∈ recKeys (buildFolderTree
      [⟨"a.ts", "a.ts", FileCategory.other, "", "", 0, 0⟩,
       ⟨"sub/b.ts", "sub/b.ts", FileCategory.other, "", "", 0, 0⟩,
       ⟨"sub/deep/c.ts", "sub/deep/c.ts", FileCategory.other, "", "", 0, 0⟩]).folders :=
  buildFolderTree_ancestor_closure.1
    [⟨"a.ts", "a.ts", FileCategory.other, "", "", 0, 0⟩,
     ⟨"sub/b.ts", "sub/b.ts", FileCategory.other, "", "", 0, 0⟩,
     ⟨"sub/deep/c.ts", "sub/deep/c.ts", FileCategory.other, "", "", 0, 0⟩]
    "sub/deep" (by decide) (by decide) 1 (by decide)

/-! # Lemmas toward subtree content (C10) -/

theorem intercalate_splitChar (sep : Char) :
    ∀ l : List Char, List.intercalate [sep] (splitChar sep l) = l := by
  intro l
  induction l with
  | nil => rfl
  | cons c rest ih =>
    cases h : splitChar sep rest with
    | nil => exact absurd h (splitChar_ne_nil sep rest)
    | cons s ss =>
      rw [show splitChar sep (c :: rest) =
          (match splitChar sep rest with
           | [] => [[c]]
           | s :: ss => if c = sep then [] :: s :: ss else (c :: s) :: ss) from rfl]
      rw [h]
      rw [h] at ih
      show List.intercalate [sep] (if c = sep then [] :: s :: ss else (c :: s) :: ss) = c :: rest
      by_cases hc : c = sep
      · rw [if_pos hc]
        rw [intercalate_cons_cons]
        subst hc
        rw [ih]
        rfl
      · rw [if_neg hc]
        cases ss with
        | nil =>
          rw [intercalate_singleton]
          rw [intercalate_singleton] at ih
          rw [ih]
        | cons y ss' =>
          rw [intercalate_cons_cons]
          rw [intercalate_cons_cons] at ih
          rw [← ih]
          rfl

theorem joinPath_splitPath (s : String) : joinPath (splitPath s) = s := by
  simp only [joinPath, splitPath, List.map_map]
  have hcomp : (String.data ∘ String.mk) = id := by
    funext l
    rfl
  rw [hcomp, List.map_id, intercalate_splitChar]

/-- The ancestor at the full segment count is the path itself. -/
theorem ancestorAt_full (q : String) :
    ancestorAt (splitPath q) (splitPath q).length = q := by
  have hne : splitPath q ≠ [] := splitPath_ne_nil q
  have hlen : (splitPath q).length ≠ 0 := by
    intro hh
    exact hne (List.length_eq_zero.mp hh)
  simp only [ancestorAt, if_neg hlen]
  rw [List.take_length]
  exact joinPath_splitPath q

theorem joinPath_cons_cons_has_slash (x y : String) (l : List String) :
    '/' ∈ (joinPath (x :: y :: l)).data := by
  simp only [joinPath, List.map_cons]
  rw [show List.intercalate ['/'] (x.data :: y.data :: l.map String.data) =
      x.data ++ (['/'] ++ List.intercalate ['/'] (y.data :: l.map String.data)) from
      intercalate_cons_cons ['/'] x.data y.data (l.map String.data)]
  simp

theorem joinPath_take_has_slash (parts : List String) (i : Nat) (h2 : 2 ≤ i)
    (hi : i ≤ parts.length) : '/' ∈ (joinPath (parts.take i)).data := by
  cases parts with
  | nil => simp at hi; omega
  | cons x rest =>
    cases rest with
    | nil => simp at hi; omega
    | cons y rest' =>
      cases i with
      | zero => omega
      | succ i' =>
        cases i' with
        | zero => omega
        | succ i'' =>
          simp only [List.take]
          exact joinPath_cons_cons_has_slash x y (rest'.take i'')

/-- A non-root ancestor of a path whose first segment is not `"."` is
never the root sentinel. -/
theorem ancestorAt_ne_dot (parts : List String) (h0 : parts.getD 0 "" ≠ ".")
    (i : Nat) (h1 : 1 ≤ i) (hlen : i ≤ parts.length) : ancestorAt parts i ≠ "." := by
  have hi0 : i ≠ 0 := by omega
  simp only [ancestorAt, if_neg hi0]
  by_cases h2 : 2 ≤ i
  · intro heq
    have := joinPath_take_has_slash parts i h2 hlen
    rw [heq] at this
    simp at this
  · have hi1 : i = 1 := by omega
    subst hi1
    cases parts with
    | nil => simp at hlen
    | cons x rest =>
      simp only [List.take, List.take_zero]
      rw [joinPath_singleton]
      simpa using h0

/-- Lengths of joined prefixes grow strictly with the level. -/
theorem joinPath_take_length_mono (parts : List String) (i : Nat) (h1 : 1 ≤ i)
    (hi : i < parts.length) :
    ((joinPath (parts.take i)).data).length < ((joinPath (parts.take (i + 1))).data).length := by
  have htne : parts.take i ≠ [] := by
    intro hh
    have := congrArg List.length hh
    simp only [List.length_take, List.length_nil] at this
    omega
  have hstep : parts.take (i + 1) = parts.take i ++ [parts.get ⟨i, hi⟩] := by
    rw [← List.take_concat_get parts i hi, List.concat_eq_append]
    rfl
  rw [hstep, joinPath_append_singleton (parts.take i) htne]
  rw [show (joinPath (parts.take i) ++ "/" ++ parts.get ⟨i, hi⟩).data
      = ((joinPath (parts.take i)).data ++ ['/']) ++ (parts.get ⟨i, hi⟩).data from rfl]
  simp only [List.length_append, List.length_cons, List.length_nil]
  omega

theorem mem_insertSorted (x y : String) (l : List String) :
    y ∈ insertSorted x l ↔ y = x ∨ y ∈ l := by
  induction l with
  | nil => simp [insertSorted]
  | cons z zs ih =>
    simp only [insertSorted]
    by_cases h : strLe x z = true
    · rw [if_pos h]
      simp
    · rw [if_neg h]
      simp only [List.mem_cons, ih]
      tauto

theorem mem_sortStrings (y : String) (l : List String) :
    y ∈ sortStrings l ↔ y ∈ l := by
  induction l with
  | nil => simp [sortStrings]
  | cons z zs ih =>
    simp only [sortStrings, List.foldr] at ih ⊢
    rw [mem_insertSorted]
    simp [ih]

theorem mem_insertFolderSorted (x y : FolderInfo) (l : List FolderInfo) :
    y ∈ insertFolderSorted x l ↔ y = x ∨ y ∈ l := by
  induction l with
  | nil => simp [insertFolderSorted]
  | cons z zs ih =>
    simp only [insertFolderSorted]
    by_cases h : strLe x.path z.path = true
    · rw [if_pos h]
      simp
    · rw [if_neg h]
      simp only [List.mem_cons, ih]
      tauto

theorem mem_sortFolders (y : FolderInfo) (l : List FolderInfo) :
    y ∈ sortFolders l ↔ y ∈ l := by
  induction l with
  | nil => simp [sortFolders]
  | cons z zs ih =>
    simp only [sortFolders, List.foldr] at ih ⊢
    rw [mem_insertFolderSorted]
    simp [ih]

theorem recGet_sortSubfolders (m : List (String × FolderInfo)) (k : String) :
    recGet (m.map fun kf => (kf.1, { kf.2 with subfolders := sortStrings kf.2.subfolders })) k
      = (recGet m k).map fun f => { f with subfolders := sortStrings f.subfolders } := by
  induction m with
  | nil => simp [recGet]
  | cons kv rest ih =>
    obtain ⟨k', v'⟩ := kv
    by_cases h : k' = k
    · simp [recGet, h]
    · simp [recGet, h, ih]

/-- The level-1 ancestor is the first segment. -/
theorem ancestorAt_one (parts : List String) (hne : parts ≠ []) :
    ancestorAt parts 1 = parts.getD 0 "" := by
  cases parts with
  | nil => exact absurd rfl hne
  | cons x rest =>
    simp only [ancestorAt, if_neg (by omega : ¬(1 = 0))]
    rw [show (x :: rest).take 1 = [x] from rfl, joinPath_singleton]
    rfl

/-- Walking from a non-root ancestor down its recorded subfolder name
reaches the next ancestor level. -/
theorem ancestorAt_succ_of_ge_one (parts : List String) (i : Nat) (h1 : 1 ≤ i)
    (hi : i < parts.length) :
    ancestorAt parts i ++ "/" ++ parts.getD i "" = ancestorAt parts (i + 1) := by
  have hi0 : i ≠ 0 := by omega
  simp only [ancestorAt, if_neg hi0, if_neg (by omega : ¬(i + 1 = 0))]
  have htne : parts.take i ≠ [] := by
    intro hh
    have := congrArg List.length hh
    simp only [List.length_take, List.length_nil] at this
    omega
  have hstep : parts.take (i + 1) = parts.take i ++ [parts.get ⟨i, hi⟩] := by
    rw [← List.take_concat_get parts i hi, List.concat_eq_append]
    rfl
  rw [hstep, joinPath_append_singleton (parts.take i) htne]
  congr 1
  rw [List.getD_eq_get parts "" hi]

theorem mem_recSet_cases {α : Type} (m : List (String × α)) (k : String) (v : α) :
    ∀ kv ∈ recSet m k v, kv ∈ m ∨ kv = (k, v) := by
  induction m with
  | nil => intro kv hkv; simp [recSet] at hkv; exact Or.inr hkv
  | cons kv0 rest ih =>
    obtain ⟨k', v'⟩ := kv0
    intro kv hkv
    simp only [recSet] at hkv
    by_cases h : k' = k
    · rw [if_pos h] at hkv
      rcases List.mem_cons.mp hkv with h2 | h2
      · subst h
        exact Or.inr (by rw [h2])
      · exact Or.inl (List.mem_cons.mpr (Or.inr h2))
    · rw [if_neg h] at hkv
      rcases List.mem_cons.mp hkv with h2 | h2
      · exact Or.inl (List.mem_cons.mpr (Or.inl h2))
      · rcases ih kv h2 with h3 | h3
        · exact Or.inl (List.mem_cons.mpr (Or.inr h3))
        · exact Or.inr h3

theorem mem_recUpdate_cases {α : Type} (m : List (String × α)) (k : String)
    (f : α → α) : ∀ kv ∈ recUpdate m k f, kv ∈ m ∨ ∃ v, (k, v) ∈ m ∧ kv = (k, f v) := by
  induction m with
  | nil => intro kv hkv; simp [recUpdate] at hkv
  | cons kv0 rest ih =>
    obtain ⟨k', v'⟩ := kv0
    intro kv hkv
    simp only [recUpdate] at hkv
    by_cases h : k' = k
    · rw [if_pos h] at hkv
      subst h
      rcases List.mem_cons.mp hkv with h2 | h2
      · exact Or.inr ⟨v', List.mem_cons.mpr (Or.inl rfl), h2⟩
      · exact Or.inl (List.mem_cons.mpr (Or.inr h2))
    · rw [if_neg h] at hkv
      rcases List.mem_cons.mp hkv with h2 | h2
      · exact Or.inl (List.mem_cons.mpr (Or.inl h2))
      · rcases ih kv h2 with h3 | ⟨v, hv, hkv2⟩
        · exact Or.inl (List.mem_cons.mpr (Or.inr h3))
        · exact Or.inr ⟨v, List.mem_cons.mpr (Or.inr hv), hkv2⟩

theorem ensureStep_preserves (parts : List String) (m : List (String × FolderInfo))
    (i : Nat) : ∀ k e, recGet m k = some e →
      ∃ e', recGet (ensureStep parts m i) k = some e'
        ∧ e'.files = e.files ∧ e'.path = e.path
        ∧ ∀ s ∈ e.subfolders, s ∈ e'.subfolders := by
  intro k e hk
  simp only [ensureStep]
  by_cases hak : ancestorAt parts i = k
  · subst hak
    have hsome : (recGet m (ancestorAt parts i)).isSome = true := by
      rw [hk]
      rfl
    rw [if_pos hsome, recGet_recUpdate_self, hk]
    simp only [Option.map_some']
    refine ⟨_, rfl, ?_, ?_, ?_⟩
    · by_cases hmem : parts.getD i "" ∈ e.subfolders
      · rw [if_pos hmem]
      · rw [if_neg hmem]
    · by_cases hmem : parts.getD i "" ∈ e.subfolders
      · rw [if_pos hmem]
      · rw [if_neg hmem]
    · intro s hs
      by_cases hmem : parts.getD i "" ∈ e.subfolders
      · rw [if_pos hmem]
        exact hs
      · rw [if_neg hmem]
        exact List.mem_append.mpr (Or.inl hs)
  · have hne : k ≠ ancestorAt parts i := fun hh => hak hh.symm
    by_cases hget : (recGet m (ancestorAt parts i)).isSome = true
    · rw [if_pos hget, recGet_recUpdate_ne _ _ _ _ hne, hk]
      exact ⟨e, rfl, rfl, rfl, fun s hs => hs⟩
    · rw [if_neg hget, recGet_recUpdate_ne _ _ _ _ hne,
        recGet_recSet_ne _ _ _ _ hne, hk]
      exact ⟨e, rfl, rfl, rfl, fun s hs => hs⟩

theorem ensureStep_establishes (parts : List String) (m : List (String × FolderInfo))
    (i : Nat) :
    ∃ e, recGet (ensureStep parts m i) (ancestorAt parts i) = some e
      ∧ parts.getD i "" ∈ e.subfolders := by
  simp only [ensureStep]
  by_cases hget : (recGet m (ancestorAt parts i)).isSome = true
  · obtain ⟨e0, he0⟩ := Option.isSome_iff_exists.mp hget
    rw [if_pos hget, recGet_recUpdate_self, he0]
    simp only [Option.map_some']
    refine ⟨_, rfl, ?_⟩
    by_cases hmem : parts.getD i "" ∈ e0.subfolders
    · rw [if_pos hmem]
      exact hmem
    · rw [if_neg hmem]
      exact List.mem_append.mpr (Or.inr (List.mem_cons_self _ _))
  · rw [if_neg hget, recGet_recUpdate_self, recGet_recSet_self]
    simp only [Option.map_some']
    refine ⟨_, rfl, ?_⟩
    rw [if_neg (by simp : ¬(parts.getD i "" ∈ ([] : List String)))]
    exact List.mem_append.mpr (Or.inr (List.mem_cons_self _ _))

theorem foldlEnsure_preserves (parts : List String) :
    ∀ (n : Nat) (m : List (String × FolderInfo)) (k : String) (e : FolderInfo),
      recGet m k = some e →
      ∃ e', recGet ((List.range n).foldl (ensureStep parts) m) k = some e'
        ∧ e'.files = e.files ∧ e'.path = e.path
        ∧ ∀ s ∈ e.subfolders, s ∈ e'.subfolders := by
  intro n
  induction n with
  | zero =>
    intro m k e hk
    exact ⟨e, by simpa using hk, rfl, rfl, fun s hs => hs⟩
  | succ kk ih =>
    intro m k e hk
    rw [List.range_succ, List.foldl_append]
    obtain ⟨e1, he1, hf1, hp1, hs1⟩ := ih m k e hk
    obtain ⟨e2, he2, hf2, hp2, hs2⟩ := ensureStep_preserves parts _ kk k e1 he1
    exact ⟨e2, by simpa using he2, hf2.trans hf1, hp2.trans hp1,
      fun s hs => hs2 s (hs1 s hs)⟩

theorem foldlEnsure_establishes (parts : List String) :
    ∀ (n : Nat) (m : List (String × FolderInfo)) (i : Nat), i < n →
      ∃ e, recGet ((List.range n).foldl (ensureStep parts) m) (ancestorAt parts i) = some e
        ∧ parts.getD i "" ∈ e.subfolders := by
  intro n
  induction n with
  | zero => intro m i hi; exact absurd hi (by omega)
  | succ kk ih =>
    intro m i hi
    rw [List.range_succ, List.foldl_append]
    by_cases hik : i < kk
    · obtain ⟨e, he, hmem⟩ := ih m i hik
      obtain ⟨e', he', _, _, hs⟩ := ensureStep_preserves parts _ kk _ e he
      exact ⟨e', by simpa using he', hs _ hmem⟩
    · have hieq : i = kk := by omega
      subst hieq
      obtain ⟨e, he, hmem⟩ := ensureStep_establishes parts _ i
      exact ⟨e, by simpa using he, hmem⟩

theorem pass2Step_preserves (m : List (String × FolderInfo)) (path : String) :
    ∀ k e, recGet m k = some e →
      ∃ e', recGet (pass2Step m path) k = some e'
        ∧ e'.files = e.files ∧ e'.path = e.path
        ∧ ∀ s ∈ e.subfolders, s ∈ e'.subfolders := by
  intro k e hk
  simp only [pass2Step]
  by_cases hdot : path = "."
  · rw [if_pos hdot]
    exact ⟨e, hk, rfl, rfl, fun s hs => hs⟩
  · rw [if_neg hdot]
    exact foldlEnsure_preserves (splitPath path) _ m k e hk

theorem pass2Step_establishes (m : List (String × FolderInfo)) (path : String)
    (hne : path ≠ ".") (i : Nat) (hi : i < (splitPath path).length) :
    ∃ e, recGet (pass2Step m path) (ancestorAt (splitPath path) i) = some e
      ∧ (splitPath path).getD i "" ∈ e.subfolders := by
  simp only [pass2Step]
  rw [if_neg hne]
  exact foldlEnsure_establishes (splitPath path) _ m i hi

theorem foldPaths_preserves (paths : List String) :
    ∀ (m : List (String × FolderInfo)) (k : String) (e : FolderInfo),
      recGet m k = some e →
      ∃ e', recGet (paths.foldl pass2Step m) k = some e'
        ∧ e'.files = e.files ∧ e'.path = e.path
        ∧ ∀ s ∈ e.subfolders, s ∈ e'.subfolders := by
  induction paths with
  | nil => intro m k e hk; exact ⟨e, hk, rfl, rfl, fun s hs => hs⟩
  | cons q rest ih =>
    intro m k e hk
    obtain ⟨e1, he1, hf1, hp1, hs1⟩ := pass2Step_preserves m q k e hk
    obtain ⟨e2, he2, hf2, hp2, hs2⟩ := ih (pass2Step m q) k e1 he1
    exact ⟨e2, he2, hf2.trans hf1, hp2.trans hp1, fun s hs => hs2 s (hs1 s hs)⟩

theorem foldPaths_establishes (paths : List String) :
    ∀ (m : List (String × FolderInfo)) (q : String), q ∈ paths → q ≠ "." →
      ∀ i, i < (splitPath q).length →
        ∃ e, recGet (paths.foldl pass2Step m) (ancestorAt (splitPath q) i) = some e
          ∧ (splitPath q).getD i "" ∈ e.subfolders := by
  induction paths with
  | nil => intro m q hq; exact absurd hq (by simp)
  | cons p rest ih =>
    intro m q hq hne i hi
    rcases List.mem_cons.mp hq with hq | hq
    · subst hq
      obtain ⟨e, he, hmem⟩ := pass2Step_establishes m q hne i hi
      obtain ⟨e', he', _, _, hs⟩ := foldPaths_preserves rest (pass2Step m q) _ e he
      exact ⟨e', he', hs _ hmem⟩
    · exact ih (pass2Step m p) q hq hne i hi

theorem pass1_files_nonempty (analyses : List FileAnalysis) :
    ∀ (m : List (String × FolderInfo)),
      (∀ k e, recGet m k = some e → e.files ≠ []) →
      ∀ k e, recGet (analyses.foldl pass1Step m) k = some e → e.files ≠ [] := by
  induction analyses with
  | nil => intro m hm; exact hm
  | cons a rest ih =>
    intro m hm
    apply ih
    intro k e hk
    simp only [pass1Step] at hk
    by_cases hak : folderPathOf a.relativePath = k
    · subst hak
      by_cases hget : (recGet m (folderPathOf a.relativePath)).isSome = true
      · rw [if_pos hget, recGet_recUpdate_self] at hk
        obtain ⟨e0, he0⟩ := Option.isSome_iff_exists.mp hget
        rw [he0] at hk
        simp only [Option.map_some', Option.some.injEq] at hk
        rw [← hk]
        simp
      · rw [if_neg hget, recGet_recUpdate_self, recGet_recSet_self] at hk
        simp only [Option.map_some', Option.some.injEq] at hk
        rw [← hk]
        simp
    · have hne : k ≠ folderPathOf a.relativePath := fun hh => hak hh.symm
      by_cases hget : (recGet m (folderPathOf a.relativePath)).isSome = true
      · rw [if_pos hget, recGet_recUpdate_ne _ _ _ _ hne] at hk
        exact hm k e hk
      · rw [if_neg hget, recGet_recUpdate_ne _ _ _ _ hne,
          recGet_recSet_ne _ _ _ _ hne] at hk
        exact hm k e hk

theorem pass1Step_path_inv (m : List (String × FolderInfo)) (a : FileAnalysis)
    (hm : ∀ kv ∈ m, (kv : String × FolderInfo).2.path = kv.1) :
    ∀ kv ∈ pass1Step m a, kv.2.path = kv.1 := by
  intro kv hkv
  simp only [pass1Step] at hkv
  by_cases hget : (recGet m (folderPathOf a.relativePath)).isSome = true
  · rw [if_pos hget] at hkv
    rcases mem_recUpdate_cases m _ _ kv hkv with h | ⟨v, hv, hkv2⟩
    · exact hm kv h
    · rw [hkv2]
      exact hm (folderPathOf a.relativePath, v) hv
  · rw [if_neg hget] at hkv
    rcases mem_recUpdate_cases _ _ _ kv hkv with h | ⟨v, hv, hkv2⟩
    · rcases mem_recSet_cases m _ _ kv h with h2 | h2
      · exact hm kv h2
      · rw [h2]
    · rcases mem_recSet_cases m _ _ _ hv with h2 | h2
      · rw [hkv2]
        exact hm (folderPathOf a.relativePath, v) h2
      · rw [hkv2]
        have hv2 : v.path = folderPathOf a.relativePath := by
          simpa using congrArg (fun kv : String × FolderInfo => kv.2.path) h2
        exact hv2

theorem ensureStep_path_inv (parts : List String) (m : List (String × FolderInfo))
    (i : Nat) (hm : ∀ kv ∈ m, (kv : String × FolderInfo).2.path = kv.1) :
    ∀ kv ∈ ensureStep parts m i, kv.2.path = kv.1 := by
  intro kv hkv
  simp only [ensureStep] at hkv
  by_cases hget : (recGet m (ancestorAt parts i)).isSome = true
  · rw [if_pos hget] at hkv
    rcases mem_recUpdate_cases m _ _ kv hkv with h | ⟨v, hv, hkv2⟩
    · exact hm kv h
    · rw [hkv2]
      show (if parts.getD i "" ∈ v.subfolders then v
        else { v with subfolders := v.subfolders ++ [parts.getD i ""] }).path
        = ancestorAt parts i
      by_cases hmem : parts.getD i "" ∈ v.subfolders
      · rw [if_pos hmem]
        exact hm (ancestorAt parts i, v) hv
      · rw [if_neg hmem]
        exact hm (ancestorAt parts i, v) hv
  · rw [if_neg hget] at hkv
    rcases mem_recUpdate_cases _ _ _ kv hkv with h | ⟨v, hv, hkv2⟩
    · rcases mem_recSet_cases m _ _ kv h with h2 | h2
      · exact hm kv h2
      · rw [h2]
    · rcases mem_recSet_cases m _ _ _ hv with h2 | h2
      · rw [hkv2]
        show (if parts.getD i "" ∈ v.subfolders then v
          else { v with subfolders := v.subfolders ++ [parts.getD i ""] }).path
          = ancestorAt parts i
        by_cases hmem : parts.getD i "" ∈ v.subfolders
        · rw [if_pos hmem]
          exact hm (ancestorAt parts i, v) h2
        · rw [if_neg hmem]
          exact hm (ancestorAt parts i, v) h2
      · rw [hkv2]
        show (if parts.getD i "" ∈ v.subfolders then v
          else { v with subfolders := v.subfolders ++ [parts.getD i ""] }).path
          = ancestorAt parts i
        have hv2 : v.path = ancestorAt parts i := by
          simpa using congrArg (fun kv : String × FolderInfo => kv.2.path) h2
        by_cases hmem : parts.getD i "" ∈ v.subfolders
        · rw [if_pos hmem]
          exact hv2
        · rw [if_neg hmem]
          exact hv2

theorem foldlEnsure_path_inv (parts : List String) :
    ∀ (n : Nat) (m : List (String × FolderInfo)),
      (∀ kv ∈ m, (kv : String × FolderInfo).2.path = kv.1) →
      ∀ kv ∈ (List.range n).foldl (ensureStep parts) m, kv.2.path = kv.1 := by
  intro n
  induction n with
  | zero => intro m hm; simpa using hm
  | succ kk ih =>
    intro m hm
    rw [List.range_succ, List.foldl_append]
    intro kv hkv
    exact ensureStep_path_inv parts _ kk (ih m hm) kv (by simpa using hkv)

theorem pass2Step_path_inv (m : List (String × FolderInfo)) (path : String)
    (hm : ∀ kv ∈ m, (kv : String × FolderInfo).2.path = kv.1) :
    ∀ kv ∈ pass2Step m path, kv.2.path = kv.1 := by
  simp only [pass2Step]
  by_cases hdot : path = "."
  · rw [if_pos hdot]; exact hm
  · rw [if_neg hdot]
    exact foldlEnsure_path_inv (splitPath path) _ m hm

theorem foldPaths_path_inv (paths : List String) :
    ∀ (m : List (String × FolderInfo)),
      (∀ kv ∈ m, (kv : String × FolderInfo).2.path = kv.1) →
      ∀ kv ∈ paths.foldl pass2Step m, kv.2.path = kv.1 := by
  induction paths with
  | nil => intro m hm; exact hm
  | cons q rest ih =>
    intro m hm
    exact ih (pass2Step m q) (pass2Step_path_inv m q hm)

theorem pass1_fold_path_inv (analyses : List FileAnalysis) :
    ∀ (m : List (String × FolderInfo)),
      (∀ kv ∈ m, (kv : String × FolderInfo).2.path = kv.1) →
      ∀ kv ∈ analyses.foldl pass1Step m, kv.2.path = kv.1 := by
  induction analyses with
  | nil => intro m hm; exact hm
  | cons a rest ih =>
    intro m hm
    exact ih (pass1Step m a) (pass1Step_path_inv m a hm)

theorem buildFolderTree_path_inv (analyses : List FileAnalysis) :
    ∀ kv ∈ (buildFolderTree analyses).folders, (kv : String × FolderInfo).2.path = kv.1 := by
  intro kv hkv
  simp only [buildFolderTree, List.mem_map] at hkv
  obtain ⟨kv0, hkv0, hkveq⟩ := hkv
  have h0 := foldPaths_path_inv (recKeys (analyses.foldl pass1Step []))
    (analyses.foldl pass1Step [])
    (pass1_fold_path_inv analyses [] (by simp)) kv0 hkv0
  rw [← hkveq]
  exact h0

theorem recKeys_pass1Step_subset (m : List (String × FolderInfo)) (a : FileAnalysis) :
    ∀ k ∈ recKeys (pass1Step m a), k ∈ recKeys m ∨ k = folderPathOf a.relativePath := by
  intro k hk
  simp only [pass1Step] at hk
  rw [recKeys_recUpdate] at hk
  by_cases hget : (recGet m (folderPathOf a.relativePath)).isSome = true
  · rw [if_pos hget] at hk
    exact Or.inl hk
  · rw [if_neg hget] at hk
    exact (mem_recKeys_recSet m _ k _).mp hk

theorem dropLast_cons_cons_getD (x y : String) (rest : List String) :
    ((x :: y :: rest).dropLast).getD 0 "" = x := rfl

theorem folderPathOf_shape (rel : String)
    (h : (splitPath rel).getD 0 "" ≠ ".") :
    folderPathOf rel = "." ∨ (splitPath (folderPathOf rel)).getD 0 "" ≠ "." := by
  simp only [folderPathOf, folderPartsOf]
  by_cases hlen : (splitPath rel).dropLast.length > 0
  · rw [if_pos hlen]
    right
    have hne : (splitPath rel).dropLast ≠ [] := by
      intro hh
      rw [hh] at hlen
      simp at hlen
    rw [splitPath_joinPath _ hne (fun x hx =>
      mem_splitPath_no_slash rel x (List.dropLast_subset _ hx))]
    cases hsp : splitPath rel with
    | nil => exact absurd hsp (splitPath_ne_nil rel)
    | cons x rest =>
      cases rest with
      | nil =>
        rw [hsp] at hne
        simp at hne
      | cons y rest' =>
        rw [dropLast_cons_cons_getD]
        have h' : x ≠ "." := by
          rw [hsp] at h
          simpa using h
        exact h'
  · rw [if_neg hlen]
    exact Or.inl rfl

theorem pass1_keys_shape :
    ∀ (analyses : List FileAnalysis) (m : List (String × FolderInfo)),
      (∀ a ∈ analyses, (splitPath a.relativePath).getD 0 "" ≠ ".") →
      (∀ k ∈ recKeys m, k = "." ∨ (splitPath k).getD 0 "" ≠ ".") →
      ∀ k ∈ recKeys (analyses.foldl pass1Step m),
        k = "." ∨ (splitPath k).getD 0 "" ≠ "." := by
  intro analyses
  induction analyses with
  | nil => intro m _ hm; exact hm
  | cons a rest ih =>
    intro m Hdot hm
    apply ih (pass1Step m a) (fun a' ha' => Hdot a' (List.mem_cons.mpr (Or.inr ha')))
    intro k hk
    rcases recKeys_pass1Step_subset m a k hk with h | h
    · exact hm k h
    · rw [h]
      exact folderPathOf_shape a.relativePath (Hdot a (List.mem_cons_self a rest))

theorem joinPath_take_length_strict (parts : List String) :
    ∀ j i, 1 ≤ i → i < j → j ≤ parts.length →
      ((joinPath (parts.take i)).data).length < ((joinPath (parts.take j)).data).length := by
  intro j
  induction j with
  | zero => intro i _ h _; omega
  | succ jj ih =>
    intro i h1 hij hj
    by_cases hieq : i = jj
    · subst hieq
      exact joinPath_take_length_mono parts i h1 (by omega)
    · have h2 := ih i h1 (by omega) (by omega)
      have h3 := joinPath_take_length_mono parts jj (by omega) (by omega)
      omega

theorem ancestorAt_inj_ne (parts : List String) (h0 : parts.getD 0 "" ≠ ".") :
    ∀ i j, i < j → j ≤ parts.length → ancestorAt parts i ≠ ancestorAt parts j := by
  intro i j hij hj
  by_cases hi0 : i = 0
  · subst hi0
    rw [ancestorAt_zero]
    exact fun hh => (ancestorAt_ne_dot parts h0 j (by omega) hj) hh.symm
  · intro heq
    have hlt := joinPath_take_length_strict parts j i (by omega) hij hj
    have hj0 : j ≠ 0 := by omega
    simp only [ancestorAt, if_neg hi0, if_neg hj0] at heq
    rw [heq] at hlt
    omega

theorem ancestorChain_nodup (parts : List String) (h0 : parts.getD 0 "" ≠ ".") :
    ((List.range (parts.length + 1)).map (ancestorAt parts)).Nodup := by
  have hinj : ∀ i ∈ List.range (parts.length + 1), ∀ j ∈ List.range (parts.length + 1),
      ancestorAt parts i = ancestorAt parts j → i = j := by
    intro i hi j hj heq
    rcases Nat.lt_trichotomy i j with h | h | h
    · exact absurd heq (ancestorAt_inj_ne parts h0 i j h
        (by have := List.mem_range.mp hj; omega))
    · exact h
    · exact absurd heq.symm (ancestorAt_inj_ne parts h0 j i h
        (by have := List.mem_range.mp hi; omega))
  exact (List.nodup_range _).map_on hinj

theorem hasContent_succ_some (final : List (String × FolderInfo)) (fuel : Nat)
    (p : String) (e : FolderInfo) (he : recGet final p = some e) :
    hasContent final (fuel + 1) p =
      (if e.files.length > 0 then true
       else e.subfolders.any fun sub =>
         hasContent final fuel (if p = "." then sub else p ++ "/" ++ sub)) := by
  rw [show hasContent final (fuel + 1) p =
      (match recGet final p with
       | none => false
       | some folder =>
         if folder.files.length > 0 then true
         else folder.subfolders.any fun sub =>
           hasContent final fuel (if p = "." then sub else p ++ "/" ++ sub)) from rfl]
  rw [he]

/-- From any level `i` of a recorded path with first segment other than
`"."`, enough fuel lets `hasContent` walk the recorded subfolder chain
down to the path's own folder, which has a file. -/
theorem hasContent_chain (final : List (String × FolderInfo)) (q : String)
    (h0 : (splitPath q).getD 0 "" ≠ ".")
    (hbase : ∃ e, recGet final q = some e ∧ e.files ≠ [])
    (hsubs : ∀ i, i < (splitPath q).length →
      ∃ e, recGet final (ancestorAt (splitPath q) i) = some e ∧
        (splitPath q).getD i "" ∈ e.subfolders) :
    ∀ (fuel i : Nat), i ≤ (splitPath q).length →
      (splitPath q).length - i < fuel →
      hasContent final fuel (ancestorAt (splitPath q) i) = true := by
  intro fuel
  induction fuel with
  | zero => intro i _ hlt; omega
  | succ f ih =>
    intro i hi hlt
    by_cases hieq : i = (splitPath q).length
    · subst hieq
      obtain ⟨e, he, hne⟩ := hbase
      rw [ancestorAt_full q]
      rw [hasContent_succ_some final f q e he]
      rw [if_pos (by simpa using List.length_pos.mpr hne)]
    · have hilt : i < (splitPath q).length := by omega
      obtain ⟨e, he, hmem⟩ := hsubs i hilt
      rw [hasContent_succ_some final f (ancestorAt (splitPath q) i) e he]
      by_cases hf : e.files.length > 0
      · rw [if_pos hf]
      · rw [if_neg hf]
        apply List.any_eq_true.mpr
        refine ⟨(splitPath q).getD i "", hmem, ?_⟩
        have hsub : (if ancestorAt (splitPath q) i = "." then (splitPath q).getD i ""
            else ancestorAt (splitPath q) i ++ "/" ++ (splitPath q).getD i "") =
            ancestorAt (splitPath q) (i + 1) := by
          by_cases hi0 : i = 0
          · subst hi0
            rw [if_pos (ancestorAt_zero _)]
            exact (ancestorAt_one (splitPath q) (splitPath_ne_nil q)).symm
          · rw [if_neg (ancestorAt_ne_dot (splitPath q) h0 i (by omega) (by omega))]
            exact ancestorAt_succ_of_ge_one (splitPath q) i (by omega) hilt
        rw [hsub]
        exact ih (i + 1) (by omega) (by omega)

/-- C10 (amended): for analyses none of whose relative paths begins with a
`"."` segment — discovery always produces such paths — every folder in the
built tree has at least one file somewhere in its subtree (`hasContent`
holds at every key with exactly the fuel `getFoldersWithContent` uses), and
consequently `getFoldersWithContent` returns every folder of the map: its
empty-subtree exclusion removes nothing.  Without the proviso the root
folder can acquire itself as a subfolder and the source's unbounded
`hasContent` recursion never terminates (see the counterexample). -/
theorem folderTree_subtree_content (analyses : List FileAnalysis)
    (Hdot : ∀ a ∈ analyses, (splitPath a.relativePath).getD 0 "" ≠ ".") :
    ∀ p ∈ recKeys (buildFolderTree analyses).folders,
      hasContent (buildFolderTree analyses).folders
          (contentFuel (buildFolderTree analyses)) p = true
      ∧ ∃ f ∈ getFoldersWithContent (buildFolderTree analyses), f.path = p := by
  intro p hp
  have hfold : (buildFolderTree analyses).folders =
      ((recKeys (analyses.foldl pass1Step [])).foldl pass2Step
        (analyses.foldl pass1Step [])).map
        (fun kf => (kf.1, { kf.2 with subfolders := sortStrings kf.2.subfolders })) := rfl
  have hF1 : ∀ q ∈ recKeys (analyses.foldl pass1Step []),
      ∃ e, recGet (buildFolderTree analyses).folders q = some e ∧ e.files ≠ [] := by
    intro q hq
    have hsome : (recGet (analyses.foldl pass1Step []) q).isSome = true :=
      (recGet_isSome_iff_mem _ q).mpr hq
    obtain ⟨e0, he0⟩ := Option.isSome_iff_exists.mp hsome
    have hne0 : e0.files ≠ [] :=
      pass1_files_nonempty analyses [] (by simp [recGet]) q e0 he0
    obtain ⟨e1, he1, hf1, _, _⟩ := foldPaths_preserves _ _ q e0 he0
    refine ⟨{ e1 with subfolders := sortStrings e1.subfolders }, ?_, ?_⟩
    · rw [hfold, recGet_sortSubfolders, he1]
      rfl
    · show e1.files ≠ []
      rw [hf1]
      exact hne0
  have hF2 : ∀ q ∈ recKeys (analyses.foldl pass1Step []), q ≠ "." →
      ∀ i, i < (splitPath q).length →
        ∃ e, recGet (buildFolderTree analyses).folders
            (ancestorAt (splitPath q) i) = some e ∧
          (splitPath q).getD i "" ∈ e.subfolders := by
    intro q hq hqne i hi
    obtain ⟨e1, he1, hmem⟩ := foldPaths_establishes _ _ q hq hqne i hi
    refine ⟨{ e1 with subfolders := sortStrings e1.subfolders }, ?_, ?_⟩
    · rw [hfold, recGet_sortSubfolders, he1]
      rfl
    · show (splitPath q).getD i "" ∈ sortStrings e1.subfolders
      exact (mem_sortStrings _ _).mpr hmem
  have hp2 : p ∈ recKeys ((recKeys (analyses.foldl pass1Step [])).foldl pass2Step
      (analyses.foldl pass1Step [])) := by
    rw [hfold, recKeys_sortSubfolders] at hp
    exact hp
  have hcontent : hasContent (buildFolderTree analyses).folders
      (contentFuel (buildFolderTree analyses)) p = true := by
    rcases recKeys_pass2_subset _ _ p hp2 with hpA | ⟨q, hq, hqne, j, hj, hpj⟩
    · obtain ⟨e, he, hne⟩ := hF1 p hpA
      rw [show contentFuel (buildFolderTree analyses) =
          (buildFolderTree analyses).folders.length + 1 from rfl]
      rw [hasContent_succ_some _ _ p e he]
      rw [if_pos (by simpa using List.length_pos.mpr hne)]
    · have h0q : (splitPath q).getD 0 "" ≠ "." := by
        rcases pass1_keys_shape analyses [] Hdot (by simp [recKeys]) q hq with h | h
        · exact absurd h hqne
        · exact h
      have hbound : (splitPath q).length + 1 ≤
          (buildFolderTree analyses).folders.length := by
        have hnd := ancestorChain_nodup (splitPath q) h0q
        have hsubset : ((List.range ((splitPath q).length + 1)).map
            (ancestorAt (splitPath q))) ⊆
            recKeys (buildFolderTree analyses).folders := by
          intro x hx
          simp only [List.mem_map, List.mem_range] at hx
          obtain ⟨jj, hjj, hxj⟩ := hx
          rw [hfold, recKeys_sortSubfolders]
          by_cases hjlen : jj = (splitPath q).length
          · subst hjlen
            rw [← hxj, ancestorAt_full]
            exact recKeys_pass2_superset _ _ q hq
          · rw [← hxj]
            exact ancestors_mem_pass2 _ _ q hq hqne jj (by omega)
        have hle := List.Subperm.length_le (List.subperm_of_subset hnd hsubset)
        simpa [recKeys] using hle
      rw [hpj]
      have hfuel : (splitPath q).length - j < contentFuel (buildFolderTree analyses) := by
        simp only [contentFuel]
        omega
      exact hasContent_chain (buildFolderTree analyses).folders q h0q (hF1 q hq)
        (hF2 q hq hqne) (contentFuel (buildFolderTree analyses)) j (by omega) hfuel
  refine ⟨hcontent, ?_⟩
  obtain ⟨kv, hkv, hfst⟩ : ∃ kv ∈ (buildFolderTree analyses).folders, kv.1 = p := by
    simp only [recKeys, List.mem_map] at hp
    obtain ⟨kv, hkv, hk1⟩ := hp
    exact ⟨kv, hkv, hk1⟩
  have hpath : kv.2.path = p := by
    rw [buildFolderTree_path_inv analyses kv hkv, hfst]
  have hck : hasContent (buildFolderTree analyses).folders
      (contentFuel (buildFolderTree analyses)) kv.1 = true := by
    rw [hfst]
    exact hcontent
  refine ⟨{ kv.2 with subfolders := kv.2.subfolders.filter (fun sub =>
      hasContent (buildFolderTree analyses).folders
        (contentFuel (buildFolderTree analyses))
        (if kv.1 = "." then sub else kv.1 ++ "/" ++ sub)) }, ?_, hpath⟩
  simp only [getFoldersWithContent]
  apply (mem_sortFolders _ _).mpr
  apply List.mem_filterMap.mpr
  refine ⟨kv, hkv, ?_⟩
  rw [if_pos hck]

/-- C10 counterexample: for the single analysis at relative path
`"./y/f.ts"` the root folder `"."` records itself as a subfolder (third
conjunct); the source's `hasContent` recursion on `"."` therefore never
terminates, and in the fuel-bounded embedding the root folder — a key of
the folders map — is excluded from `getFoldersWithContent`'s result. -/
theorem folderTree_content_counterexample :
    "." ∈ recKeys (buildFolderTree
      [⟨"p", "./y/f.ts", FileCategory.other, "s", "h", 0, 0⟩]).folders
    ∧ (getFoldersWithContent (buildFolderTree
        [⟨"p", "./y/f.ts", FileCategory.other, "s", "h", 0, 0⟩])).filter
        (fun f => f.path == ".") = []
    ∧ "." ∈ ((recGet (buildFolderTree
        [⟨"p", "./y/f.ts", FileCategory.other, "s", "h", 0, 0⟩]).folders ".").getD
        ⟨"", "", [], [], 0⟩).subfolders :=
  ⟨by decide, by decide, by decide⟩

/-- C10 witness: the amended theorem at the three-file example — the root
folder's subtree has content and the root appears in the returned list. -/
theorem folderTree_subtree_content_witness :
    hasContent (buildFolderTree
        [⟨"a.ts", "a.ts", FileCategory.other, "", "", 0, 0⟩,
         ⟨"sub/b.ts", "sub/b.ts", FileCategory.other, "", "", 0, 0⟩,
         ⟨"sub/deep/c.ts", "sub/deep/c.ts", FileCategory.other, "", "", 0, 0⟩]).folders
      (contentFuel (buildFolderTree
        [⟨"a.ts", "a.ts", FileCategory.other, "", "", 0, 0⟩,
         ⟨"sub/b.ts", "sub/b.ts", FileCategory.other, "", "", 0, 0⟩,
         ⟨"sub/deep/c.ts", "sub/deep/c.ts", FileCategory.other, "", "", 0, 0⟩]))
      "." = true
    ∧ ∃ f ∈ getFoldersWithContent (buildFolderTree
        [⟨"a.ts", "a.ts", FileCategory.other, "", "", 0, 0⟩,
         ⟨"sub/b.ts", "sub/b.ts", FileCategory.other, "", "", 0, 0⟩,
         ⟨"sub/deep/c.ts", "sub/deep/c.ts", FileCategory.other, "", "", 0, 0⟩]),
        f.path = "." :=
  folderTree_subtree_content
    [⟨"a.ts", "a.ts", FileCategory.other, "", "", 0, 0⟩,
     ⟨"sub/b.ts", "sub/b.ts", FileCategory.other, "", "", 0, 0⟩,
     ⟨"sub/deep/c.ts", "sub/deep/c.ts", FileCategory.other, "", "", 0, 0⟩]
    (by decide) "." (by decide)

end Cliffnotes
